import Mathlib

/-!
Verification of the name-resolution core of `pydocspec` (`src/pydocspec/__init__.py`).

The entity tree is embedded arena-style: objects live in a flat list, `parent`
and `members` are indices into it.  The mutually recursive resolution methods
(`ApiObject.expand_name`, `ApiObject._local_to_full_name`,
`ApiObject._resolve_indirection`, `Class.find`, `Class.resolved_bases`,
`ApiObject.resolve_name`) are translated with an explicit fuel parameter,
decremented at every call; `Err.fuelOut` marks fuel exhaustion (the source's
potential unbounded recursion / Python `RecursionError`), `Err.pyRaise` marks a
raised exception (a failed `assert`, or attribute access on a missing parent).

Helper modules of the repository that are not in `src/` (`dottedname.py`,
`dupsafedict.py`, `astutils.py`) are modelled from the spec where marked.
-/

namespace Pydocspec

/-- Kinds of API objects (`Module`, `Class`, `Function`, `Data`, `Indirection`). -/
inductive Kind where
  | module
  | cls
  | func
  | data
  | indirection
deriving DecidableEq, Repr

/-- Modelled from the spec: an element of a list/tuple literal, classified by
what `ast.literal_eval` does with it — a string literal, some other
successfully evaluated literal, or a node `literal_eval` rejects with
`ValueError` (`astutils.py` is not under `src/`). -/
inductive PyLit where
  | strL (s : String)
  | okL
  | badL
deriving DecidableEq, Repr

/-- Modelled from the spec: the already-parsed value/annotation expression tree
(`astutils.py` is not under `src/`).  `nameE` is a plain possibly-dotted name
reference (`ast.Name` / `ast.Attribute` chain), the payload being its parts;
`strE`/`intE` are literals; `listE`/`tupleE` are sequence literals with their
elements classified; `otherE` stands for any other expression. -/
inductive PyExpr where
  | nameE (parts : List String)
  | strE (s : String)
  | intE (n : Int)
  | listE (elts : List PyLit)
  | tupleE (elts : List PyLit)
  | otherE
deriving DecidableEq, Repr

/-- One API object of the tree.  `members` is meaningful for `module`/`cls`
(the `HasMembers` kinds), `bases` for `cls`, `value` for `data` (its parsed
assigned value, `Data.value_ast`), `target` for `indirection`. -/
structure Obj where
  name : String
  kind : Kind
  parent : Option Nat
  members : List Nat
  bases : List String
  value : Option PyExpr
  target : String
deriving DecidableEq, Repr

/-- The root of the tree: the arena of objects and the `all_objects` registry
(`ApiObjectsRoot.all_objects`), an insertion-ordered association list from
full name to object index. -/
structure Root where
  objs : List Obj
  allObjects : List (String × Nat)
deriving DecidableEq, Repr

/-- An `Indirection` as carried in the `_indirections` chain of
`_resolve_indirection`: owning parent, local name and target text.  Equality of
chain entries models equality of the followed `docspec.Indirection` objects
(the same member looked up twice yields the same object; `Data._alias_indirection`
is a `cached_property`). -/
structure Ind where
  parent : Option Nat
  name : String
  target : String
deriving DecidableEq, Repr

/-- Outcomes other than a value: fuel exhaustion (unbounded recursion /
`RecursionError`) or a raised Python exception (failed assertion, attribute
access on `None`). -/
inductive Err where
  | fuelOut
  | pyRaise
deriving DecidableEq, Repr

abbrev Res (α : Type) := Except Err α

instance {ε α : Type} [DecidableEq ε] [DecidableEq α] : DecidableEq (Except ε α) := fun a b => by
  cases a <;> cases b
  case error.error e f => exact decidable_of_iff (e = f) (by simp)
  case error.ok e v => exact isFalse (by simp)
  case ok.error v e => exact isFalse (by simp)
  case ok.ok v w => exact decidable_of_iff (v = w) (by simp)

/-- `_RESOLVE_ALIAS_MAX_RECURSE = 5`. -/
def RESOLVE_ALIAS_MAX_RECURSE : Nat := 5

/-- Modelled from the spec: `DottedName` (from the missing `dottedname.py`)
joins parts with `"."`. -/
def joinDots : List String → String
  | [] => ""
  | [s] => s
  | s :: rest => s ++ "." ++ joinDots rest

/-- Modelled from the spec: splitting a dotted name on `"."`
(`DottedName(name)` iterated part by part). -/
def splitDotsAux : List Char → List Char → List String
  | [], acc => [String.mk acc.reverse]
  | c :: cs, acc =>
    if c = '.' then String.mk acc.reverse :: splitDotsAux cs []
    else splitDotsAux cs (c :: acc)

def splitDots (s : String) : List String :=
  splitDotsAux s.data []

/-- Modelled from the spec: `DuplicateSafeDict.get` — lookup returns the
first-inserted binding for the key (`dupsafedict.py` is not under `src/`). -/
def dsdGet : List (String × Nat) → String → Option Nat
  | [], _ => none
  | kv :: rest, k => if kv.1 == k then some kv.2 else dsdGet rest k

def dsdContains : List (String × Nat) → String → Bool
  | [], _ => false
  | kv :: rest, k => kv.1 == k || dsdContains rest k

/-- Modelled from the spec: `DuplicateSafeDict` insertion — it never overwrites
an existing key; the first binding registered for a full name wins. -/
def dsdAdd (d : List (String × Nat)) (kv : String × Nat) : List (String × Nat) :=
  if dsdContains d kv.1 then d else d ++ [kv]

def getObj (r : Root) (i : Nat) : Option Obj :=
  r.objs[i]?

/-- `isinstance(o, HasMembers)` — `HasMembers = (Module, Class)`. -/
def isContainer (k : Kind) : Bool :=
  k = Kind.module || k = Kind.cls

/-- Modelled from the spec: `astutils.node2dottedname` succeeds exactly on a
plain (possibly dotted) name expression, giving back its text. -/
def exprDotted : PyExpr → Option String
  | PyExpr.nameE parts => some (joinDots parts)
  | _ => none

/-- `Data.is_alias`: the assigned value is itself a plain dotted-name
reference. -/
def isAlias (o : Obj) : Bool :=
  match o.value with
  | some e => (exprDotted e).isSome
  | none => false

/-- `Data._alias_indirection`'s target: the alias's assigned-value text. -/
def aliasTarget (o : Obj) : String :=
  match o.value with
  | some e => (exprDotted e).getD ""
  | none => ""

/-- Scan a member-id list for the first member with the given local name
(the loop of `ApiObject.get_member`). -/
def findIn (r : Root) (name : String) : List Nat → Option Nat
  | [] => none
  | mid :: rest =>
    match getObj r mid with
    | some mo => if mo.name == name then some mid else findIn r name rest
    | none => findIn r name rest

/-- `ApiObject.get_member`: first direct member with the given name, `none`
for objects that do not support members. -/
def getMember (r : Root) (i : Nat) (name : String) : Option Nat :=
  match getObj r i with
  | some o => if isContainer o.kind then findIn r name o.members else none
  | none => none

/-- `ApiObject.full_name` / `dotted_name`: names of `self.path` joined with
dots, computed by walking `parent` links (fuel-bounded). -/
def fullNameF (r : Root) : Nat → Nat → Res String
  | 0, _ => Except.error Err.fuelOut
  | fuel + 1, i =>
    match getObj r i with
    | none => Except.error Err.pyRaise
    | some o =>
      match o.parent with
      | none => Except.ok o.name
      | some p =>
        match fullNameF r fuel p with
        | Except.error e => Except.error e
        | Except.ok s => Except.ok (s ++ "." ++ o.name)

/-- `ApiObject.module`: the nearest enclosing (or self) `Module`, by walking
`parent` links; the `assert self.parent is not None` raises on a parentless
non-module. -/
def moduleF (r : Root) : Nat → Nat → Res Nat
  | 0, _ => Except.error Err.fuelOut
  | fuel + 1, i =>
    match getObj r i with
    | none => Except.error Err.pyRaise
    | some o =>
      if o.kind = Kind.module then Except.ok i
      else
        match o.parent with
        | none => Except.error Err.pyRaise
        | some p => moduleF r fuel p

/-- Full name of a chain `Indirection` (its `path` is its parent's path plus
its own name; a parentless one is just its own name). -/
def indFullName (r : Root) (fuel : Nat) (ind : Ind) : Res String :=
  match ind.parent with
  | none => Except.ok ind.name
  | some p =>
    match fullNameF r fuel p with
    | Except.error e => Except.error e
    | Except.ok s => Except.ok (s ++ "." ++ ind.name)

/-- Python's `x or y` applied to an optional resolution result and the member's
own full name: `self._resolve_indirection(...) or member.full_name`; an empty
string is falsy, so it also falls back. -/
def pyOr (r : Root) (fuel : Nat) : Option String → Nat → Res String
  | some s, mid => if s = "" then fullNameF r fuel mid else Except.ok s
  | none, mid => fullNameF r fuel mid

/-- A resolved base of a class: an object of the tree (`resolve_name`
succeeded) or a best-effort expanded string. -/
inductive RBase where
  | obj (oid : Nat)
  | txt (s : String)
deriving DecidableEq, Repr

mutual

/-- The loop of `ApiObject.expand_name` over the parts of the dotted name.
`first = true` at the part of index 0 (`i == 0` in the source).  On "break" the
remaining parts are appended verbatim (`str(DottedName(full_name, *parts[i + 1:]))`). -/
def expandParts (r : Root) : Nat → Nat → Bool → List String → Bool → List Ind → Res String
  | 0, _, _, _, _, _ => Except.error Err.fuelOut
  | _ + 1, _, _, [], _, _ => Except.error Err.pyRaise
  | fuel + 1, ctx, first, part :: rest, follow, chain =>
    match localToFullName r fuel ctx part follow chain with
    | Except.error e => Except.error e
    | Except.ok fn =>
      if fn == part && !first then
        match
          (match getObj r ctx with
           | some o =>
             if o.kind = Kind.cls then
               match findMember r fuel ctx part with
               | Except.error e => Except.error e
               | Except.ok (some f) => fullNameF r fuel f
               | Except.ok none => Except.ok fn
             else Except.ok fn
           | none => Except.ok fn) with
        | Except.error e => Except.error e
        | Except.ok fn2 =>
          if fn2 == part then
            match fullNameF r fuel ctx with
            | Except.error e => Except.error e
            | Except.ok cf => Except.ok (joinDots ((cf ++ "." ++ part) :: rest))
          else proceedPart r fuel fn2 rest follow chain
      else proceedPart r fuel fn rest follow chain
termination_by structural fuel _ _ _ _ _ => fuel

/-- Tail of one `expand_name` loop iteration: look the resolved full name up in
the registry; not found breaks the scan, found continues with that object as
the new context. -/
def proceedPart (r : Root) : Nat → String → List String → Bool → List Ind → Res String
  | 0, _, _, _, _ => Except.error Err.fuelOut
  | fuel + 1, fn, rest, follow, chain =>
    match dsdGet r.allObjects fn with
    | none => Except.ok (joinDots (fn :: rest))
    | some nxt =>
      match rest with
      | [] => Except.ok fn
      | _ :: _ => expandParts r fuel nxt false rest follow chain
termination_by structural fuel _ _ _ _ => fuel

/-- `ApiObject._local_to_full_name`. -/
def localToFullName (r : Root) : Nat → Nat → String → Bool → List Ind → Res String
  | 0, _, _, _, _ => Except.error Err.fuelOut
  | fuel + 1, i, name, follow, chain =>
    match getObj r i with
    | none => Except.error Err.pyRaise
    | some o =>
      if isContainer o.kind then
        match getMember r i name with
        | some mid =>
          match getObj r mid with
          | none => Except.error Err.pyRaise
          | some mo =>
            if follow && (mo.kind = Kind.data && isAlias mo) then
              match resolveIndirection r fuel ⟨mo.parent, mo.name, aliasTarget mo⟩ chain with
              | Except.error e => Except.error e
              | Except.ok res => pyOr r fuel res mid
            else if mo.kind = Kind.indirection then
              match resolveIndirection r fuel ⟨mo.parent, mo.name, mo.target⟩ chain with
              | Except.error e => Except.error e
              | Except.ok res => pyOr r fuel res mid
            else fullNameF r fuel mid
        | none =>
          if o.kind = Kind.cls then
            match o.parent with
            | none => Except.error Err.pyRaise
            | some p => localToFullName r fuel p name follow chain
          else Except.ok name
      else
        match o.parent with
        | none => Except.error Err.pyRaise
        | some p => localToFullName r fuel p name follow chain
termination_by structural fuel _ _ _ _ => fuel

/-- `ApiObject._resolve_indirection`. -/
def resolveIndirection (r : Root) : Nat → Ind → List Ind → Res (Option String)
  | 0, _, _ => Except.error Err.fuelOut
  | fuel + 1, ind, chain =>
    if chain.length > RESOLVE_ALIAS_MAX_RECURSE then
      match chain.head? with
      | some i0 =>
        match indFullName r fuel i0 with
        | Except.error e => Except.error e
        | Except.ok s => Except.ok (some s)
      | none => Except.error Err.pyRaise
    else
      match ind.parent with
      | none => Except.error Err.pyRaise
      | some ctx =>
        if chain.getLast? = some ind then
          match getObj r ctx with
          | none => Except.error Err.pyRaise
          | some co =>
            match co.parent with
            | none => Except.ok none
            | some cp =>
              match moduleF r fuel ctx with
              | Except.error e => Except.error e
              | Except.ok m1 =>
                match moduleF r fuel cp with
                | Except.error e => Except.error e
                | Except.ok m2 =>
                  if m1 = m2 then
                    match expandParts r fuel cp true (splitDots ind.target) true (chain ++ [ind]) with
                    | Except.error e => Except.error e
                    | Except.ok s => Except.ok (some s)
                  else Except.ok none
        else
          match expandParts r fuel ctx true (splitDots ind.target) true (chain ++ [ind]) with
          | Except.error e => Except.error e
          | Except.ok s => Except.ok (some s)
termination_by structural fuel _ _ => fuel

/-- `Class.find`: first direct-member match over `all_base_classes(include_self=True)`
in depth-first order (self first, then each resolved base's chain). -/
def findMember (r : Root) : Nat → Nat → String → Res (Option Nat)
  | 0, _, _ => Except.error Err.fuelOut
  | fuel + 1, c, name =>
    match getMember r c name with
    | some m => Except.ok (some m)
    | none =>
      match resolvedBases r fuel c with
      | Except.error e => Except.error e
      | Except.ok bs => scanBases r fuel bs name
termination_by structural fuel _ _ => fuel

/-- The depth-first scan of resolved bases underlying `Class.all_bases` /
`all_base_classes` as consumed lazily by `Class.find`: non-class entries are
skipped, class entries are searched self-first. -/
def scanBases (r : Root) : Nat → List RBase → String → Res (Option Nat)
  | 0, _, _ => Except.error Err.fuelOut
  | _ + 1, [], _ => Except.ok none
  | fuel + 1, RBase.obj oid :: rest, name =>
    match getObj r oid with
    | none => Except.error Err.pyRaise
    | some o =>
      if o.kind = Kind.cls then
        match findMember r fuel oid name with
        | Except.error e => Except.error e
        | Except.ok (some x) => Except.ok (some x)
        | Except.ok none => scanBases r fuel rest name
      else scanBases r fuel rest name
  | fuel + 1, RBase.txt _ :: rest, name => scanBases r fuel rest name
termination_by structural fuel _ _ => fuel

/-- `Class.resolved_bases`: for each base name,
`self.parent.resolve_name(base) or self.parent.expand_name(base)`. -/
def resolvedBases (r : Root) : Nat → Nat → Res (List RBase)
  | 0, _ => Except.error Err.fuelOut
  | fuel + 1, c =>
    match getObj r c with
    | none => Except.error Err.pyRaise
    | some o =>
      match o.parent with
      | none => Except.error Err.pyRaise
      | some p => resolveBaseList r fuel p o.bases
termination_by structural fuel _ => fuel

def resolveBaseList (r : Root) : Nat → Nat → List String → Res (List RBase)
  | 0, _, _ => Except.error Err.fuelOut
  | _ + 1, _, [] => Except.ok []
  | fuel + 1, p, b :: bs =>
    match resolveNameF r fuel p b true with
    | Except.error e => Except.error e
    | Except.ok (some oid) =>
      match resolveBaseList r fuel p bs with
      | Except.error e => Except.error e
      | Except.ok tl => Except.ok (RBase.obj oid :: tl)
    | Except.ok none =>
      match expandParts r fuel p true (splitDots b) true [] with
      | Except.error e => Except.error e
      | Except.ok s =>
        match resolveBaseList r fuel p bs with
        | Except.error e => Except.error e
        | Except.ok tl => Except.ok (RBase.txt s :: tl)
termination_by structural fuel _ _ => fuel

/-- `ApiObject.resolve_name`: registry lookup of the expanded name. -/
def resolveNameF (r : Root) : Nat → Nat → String → Bool → Res (Option Nat)
  | 0, _, _, _ => Except.error Err.fuelOut
  | fuel + 1, ctx, name, follow =>
    match expandParts r fuel ctx true (splitDots name) follow [] with
    | Except.error e => Except.error e
    | Except.ok s => Except.ok (dsdGet r.allObjects s)
termination_by structural fuel _ _ _ => fuel

end

/-- `ApiObject.expand_name` on a dotted name string. -/
def expandName (r : Root) (fuel : Nat) (i : Nat) (name : String) (follow : Bool)
    (chain : List Ind) : Res String :=
  expandParts r fuel i true (splitDots name) follow chain

/-! ## `Module.all` and `Module.docformat`

Diagnostics (`ApiObject._warns`) are collected as a list of messages, without
the `full_name:lineno - ` prefix the source prepends. -/

/-- The element loop of `Module.all`: string literals are collected,
`ValueError` elements and non-string literals each produce a diagnostic and
are skipped. -/
def allElems : List PyLit → Nat → List String × List String
  | [], _ => ([], [])
  | e :: es, idx =>
    let rest := allElems es (idx + 1)
    match e with
    | PyLit.strL s => (s :: rest.1, rest.2)
    | PyLit.okL =>
      (rest.1, ("Element " ++ toString idx ++ " of \"__all__\" has a non-str type, expected \"str\"") :: rest.2)
    | PyLit.badL =>
      (rest.1, ("Cannot parse element " ++ toString idx ++ " of \"__all__\"") :: rest.2)

/-- `Module.all`: parse the module variable `__all__` into a list of names,
together with the emitted diagnostics. -/
def moduleAll (r : Root) (mid : Nat) : Option (List String) × List String :=
  match getMember r mid "__all__" with
  | none => (none, [])
  | some vid =>
    match getObj r vid with
    | none => (none, [])
    | some vo =>
      if vo.kind = Kind.data then
        match vo.value with
        | some (PyExpr.listE elts) => (some (allElems elts 0).1, (allElems elts 0).2)
        | some (PyExpr.tupleE elts) => (some (allElems elts 0).1, (allElems elts 0).2)
        | _ => (none, ["Cannot parse value assigned to \"__all__\", must be a list or tuple."])
      else (none, [])

/-- Modelled from the spec: Python's `str.strip()` — drop leading and
trailing whitespace. -/
def pyStrip (s : String) : String :=
  String.mk (((s.data.dropWhile Char.isWhitespace).reverse.dropWhile Char.isWhitespace).reverse)

/-- Modelled from the spec: top-level `ast.literal_eval` on a `Data` value
expression — `none` is a `ValueError`, `some none` a successfully evaluated
non-string, `some (some s)` the string `s`.  `literal_eval` of an absent
(`None`) value raises `ValueError`. -/
def litEvalTop : Option PyExpr → Option (Option String)
  | none => none
  | some (PyExpr.strE s) => some (some s)
  | some (PyExpr.intE _) => some none
  | some (PyExpr.listE elts) => if elts.all (fun e => e != PyLit.badL) then some none else none
  | some (PyExpr.tupleE elts) => if elts.all (fun e => e != PyLit.badL) then some none else none
  | some (PyExpr.nameE _) => none
  | some PyExpr.otherE => none

/-- `Module.docformat`: as written in the source, it looks up the member named
`__all__` (not `__docformat__`), then parses that member's value as a
non-empty string. -/
def docformatF (r : Root) (mid : Nat) : Option String × List String :=
  match getMember r mid "__all__" with
  | none => (none, [])
  | some vid =>
    match getObj r vid with
    | none => (none, [])
    | some vo =>
      if vo.kind = Kind.data then
        match litEvalTop vo.value with
        | none => (none, ["Cannot parse value assigned to \"__docformat__\": not a string"])
        | some none => (none, ["Cannot parse value assigned to \"__docformat__\": not a string"])
        | some (some s) =>
          if pyStrip s = "" then (none, ["Cannot parse value assigned to \"__docformat__\": empty value"])
          else (some s, [])
      else (none, [])

/-! ## Well-formedness of a loaded tree

The loader (out of scope per the spec) must deliver a tree where parent links
are set, walking parents terminates at a parentless root `Module`, and all
indices are in range.  Names are non-empty identifiers. -/

def wfObj (r : Root) (o : Obj) : Bool :=
  (o.name != "") &&
  (match o.parent with
   | some p =>
     decide (p < r.objs.length) &&
     (match getObj r p with
      | some po => isContainer po.kind
      | none => false)
   | none => o.kind = Kind.module) &&
  o.members.all (fun m => decide (m < r.objs.length))

/-- The parent chain of `i` reaches a parentless root in fewer than `fuel`
steps. -/
def reachesRoot (r : Root) : Nat → Nat → Bool
  | 0, _ => false
  | fuel + 1, i =>
    match getObj r i with
    | none => false
    | some o =>
      match o.parent with
      | none => true
      | some p => reachesRoot r fuel p

def wfRoot (r : Root) : Bool :=
  r.objs.all (wfObj r) &&
  (List.range r.objs.length).all (fun i => reachesRoot r (r.objs.length + 1) i) &&
  r.allObjects.all (fun kv => decide (kv.2 < r.objs.length))

/-- The container that answers `_local_to_full_name` lookups for `i`: `i`
itself if it has members, else the nearest container ancestor. -/
def nearestContainerF (r : Root) : Nat → Nat → Res Nat
  | 0, _ => Except.error Err.fuelOut
  | fuel + 1, i =>
    match getObj r i with
    | none => Except.error Err.pyRaise
    | some o =>
      if isContainer o.kind then Except.ok i
      else
        match o.parent with
        | none => Except.error Err.pyRaise
        | some p => nearestContainerF r fuel p

/-! ## Concrete trees used as test fixtures -/

/-- A plain object with no bases, value or target. -/
def mkO (name : String) (kind : Kind) (parent : Option Nat) (members : List Nat) : Obj :=
  ⟨name, kind, parent, members, [], none, ""⟩

/-- A `Data` binding with a parsed value. -/
def mkData (name : String) (parent : Option Nat) (value : Option PyExpr) : Obj :=
  ⟨name, Kind.data, some (parent.getD 0), [], [], value, ""⟩

/-- An `Indirection` with a target. -/
def mkIndO (name : String) (parent : Nat) (target : String) : Obj :=
  ⟨name, Kind.indirection, some parent, [], [], none, target⟩

/-- A single empty root module `m`. -/
def oneModTree : Root :=
  ⟨[mkO "m" Kind.module none []], [("m", 0)]⟩

/-- Module `m` with `a = b` (an alias `Data`) and a plain `Data` `b`. -/
def aliasPairTree : Root :=
  ⟨[mkO "m" Kind.module none [1, 2],
    mkData "a" (some 0) (some (PyExpr.nameE ["b"])),
    mkData "b" (some 0) none],
   [("m", 0), ("m.a", 1), ("m.b", 2)]⟩

/-- Module `m` with two classes whose base lists resolve to each other:
`class A(B)` and `class B(A)`. -/
def cyclicBaseTree : Root :=
  ⟨[mkO "m" Kind.module none [1, 2],
    ⟨"A", Kind.cls, some 0, [], ["B"], none, ""⟩,
    ⟨"B", Kind.cls, some 0, [], ["A"], none, ""⟩],
   [("m", 0), ("m.A", 1), ("m.B", 2)]⟩

/-- Module `m` with a chain of 6 indirections `a1 → a2 → ... → a6 → x` ending
at a plain `Data` `x`. -/
def chainTree6 : Root :=
  ⟨[mkO "m" Kind.module none [1, 2, 3, 4, 5, 6, 7],
    mkIndO "a1" 0 "a2", mkIndO "a2" 0 "a3", mkIndO "a3" 0 "a4",
    mkIndO "a4" 0 "a5", mkIndO "a5" 0 "a6", mkIndO "a6" 0 "x",
    mkData "x" (some 0) none],
   [("m", 0), ("m.a1", 1), ("m.a2", 2), ("m.a3", 3), ("m.a4", 4),
    ("m.a5", 5), ("m.a6", 6), ("m.x", 7)]⟩

/-- Module `m` with a chain of 7 indirections `a1 → ... → a7 → x`. -/
def chainTree7 : Root :=
  ⟨[mkO "m" Kind.module none [1, 2, 3, 4, 5, 6, 7, 8],
    mkIndO "a1" 0 "a2", mkIndO "a2" 0 "a3", mkIndO "a3" 0 "a4",
    mkIndO "a4" 0 "a5", mkIndO "a5" 0 "a6", mkIndO "a6" 0 "a7",
    mkIndO "a7" 0 "x", mkData "x" (some 0) none],
   [("m", 0), ("m.a1", 1), ("m.a2", 2), ("m.a3", 3), ("m.a4", 4),
    ("m.a5", 5), ("m.a6", 6), ("m.a7", 7), ("m.x", 8)]⟩

/-- Root module `m` with the self-referential alias `X = X`. -/
def selfAliasTree : Root :=
  ⟨[mkO "m" Kind.module none [1],
    mkData "X" (some 0) (some (PyExpr.nameE ["X"]))],
   [("m", 0), ("m.X", 1)]⟩

/-- Module `m` with `class C: X = X` and a module-level `Data` `X`: the
self-referential alias inside `C` retries one scope up and finds `m.X`. -/
def nestedSelfAliasTree : Root :=
  ⟨[mkO "m" Kind.module none [1, 3],
    ⟨"C", Kind.cls, some 0, [2], [], none, ""⟩,
    mkData "X" (some 1) (some (PyExpr.nameE ["X"])),
    mkData "X" (some 0) none],
   [("m", 0), ("m.C", 1), ("m.C.X", 2), ("m.X", 3)]⟩

/-- Package `p` with a submodule `q` holding the self-referential indirection
`X = X`: the owner `q` has a parent, but in a different module, so the retry
branch is skipped and `_resolve_indirection` returns `None`. -/
def diffModSelfAliasTree : Root :=
  ⟨[mkO "p" Kind.module none [1],
    mkO "q" Kind.module (some 0) [2],
    mkIndO "X" 1 "X"],
   [("p", 0), ("p.q", 1), ("p.q.X", 2)]⟩

/-- Module `m` with `class C(A, B)` where both `A` and `B` define a member
`mm` and `C` does not. -/
def diamondTree : Root :=
  ⟨[mkO "m" Kind.module none [1, 2, 4],
    ⟨"A", Kind.cls, some 0, [3], [], none, ""⟩,
    ⟨"C", Kind.cls, some 0, [], ["A", "B"], none, ""⟩,
    mkData "mm" (some 1) none,
    ⟨"B", Kind.cls, some 0, [5], [], none, ""⟩,
    mkData "mm" (some 4) none],
   [("m", 0), ("m.A", 1), ("m.C", 2), ("m.A.mm", 3), ("m.B", 4), ("m.B.mm", 5)]⟩

/-- Module `m` with an `Indirection` `i` (target `x`) and a plain `Data` `x`:
resolving `m.i` from the root lands on `m.x`, not on the indirection. -/
def indirectionTree : Root :=
  ⟨[mkO "m" Kind.module none [1, 2],
    mkIndO "i" 0 "x",
    mkData "x" (some 0) none],
   [("m", 0), ("m.i", 1), ("m.x", 2)]⟩

/-- Module `m` whose `__all__` is assigned a non-list/tuple value, and which
has a `__docformat__` member but no `__all__` `Data` in `badAllTree2`. -/
def badAllTree : Root :=
  ⟨[mkO "m" Kind.module none [1],
    mkData "__all__" (some 0) (some (PyExpr.intE 3))],
   [("m", 0), ("m.__all__", 1)]⟩

/-- Module `m` with `__all__ = ["a", 1, bad, "b"]`. -/
def mixedAllTree : Root :=
  ⟨[mkO "m" Kind.module none [1],
    mkData "__all__" (some 0)
      (some (PyExpr.listE [PyLit.strL "a", PyLit.okL, PyLit.badL, PyLit.strL "b"]))],
   [("m", 0), ("m.__all__", 1)]⟩

/-- Module `m` with a `__docformat__` string member but no `__all__`. -/
def docfmtOnlyTree : Root :=
  ⟨[mkO "m" Kind.module none [1],
    mkData "__docformat__" (some 0) (some (PyExpr.strE "restructuredtext"))],
   [("m", 0), ("m.__docformat__", 1)]⟩

/-- Module `m` with both `__all__ = ["a"]` and `__docformat__ = "epytext"`. -/
def docfmtBothTree : Root :=
  ⟨[mkO "m" Kind.module none [1, 2],
    mkData "__all__" (some 0) (some (PyExpr.listE [PyLit.strL "a"])),
    mkData "__docformat__" (some 0) (some (PyExpr.strE "epytext"))],
   [("m", 0), ("m.__all__", 1), ("m.__docformat__", 2)]⟩

/-- Module `m` whose `__all__` is (strangely) assigned the string "epytext". -/
def allStrTree : Root :=
  ⟨[mkO "m" Kind.module none [1],
    mkData "__all__" (some 0) (some (PyExpr.strE "epytext"))],
   [("m", 0), ("m.__all__", 1)]⟩

/-- The string kept by the element loop of `Module.all`: only string
literals. -/
def litStr : PyLit → Option String
  | PyLit.strL s => some s
  | _ => none

/-- Elements of `__all__` that draw a diagnostic: everything that is not a
string literal. -/
def nonStrLit : PyLit → Bool
  | PyLit.strL _ => false
  | _ => true

/-! ## Basic string and list lemmas -/

theorem strLenZero (s : String) (h : s.length = 0) : s = "" := by
  cases s with
  | mk data =>
    cases data with
    | nil => rfl
    | cons c cs => simp [String.length] at h

theorem strMid_ne (a b : String) : a ++ "." ++ b ≠ "" := by
  intro hc
  have h0 : (a ++ "." ++ b).length = 0 := by rw [hc]; rfl
  rw [String.length_append, String.length_append] at h0
  have h1 : ("." : String).length = 1 := rfl
  omega

theorem strMid_ne_right (a b : String) : a ++ "." ++ b ≠ b := by
  intro hc
  have h0 : (a ++ "." ++ b).length = b.length := by rw [hc]
  rw [String.length_append, String.length_append] at h0
  have h1 : ("." : String).length = 1 := rfl
  omega

theorem joinDots_ne_of_head (s : String) (l : List String) (h : s ≠ "") :
    joinDots (s :: l) ≠ "" := by
  cases l with
  | nil => exact h
  | cons a l => exact strMid_ne s (joinDots (a :: l))

theorem joinDots_cons_cons (s a : String) (l : List String) :
    joinDots (s :: a :: l) ≠ "" :=
  strMid_ne s (joinDots (a :: l))

theorem splitDotsAux_ne_nil (cs : List Char) (acc : List Char) :
    splitDotsAux cs acc ≠ [] := by
  induction cs generalizing acc with
  | nil => simp [splitDotsAux]
  | cons c cs ih =>
    by_cases h : c = '.' <;> simp [splitDotsAux, h, ih]

theorem splitDots_ne_nil (s : String) : splitDots s ≠ [] :=
  splitDotsAux_ne_nil s.data []

theorem splitDotsAux_single (cs : List Char) (acc : List Char) (t : String)
    (h : splitDotsAux cs acc = [t]) : t = String.mk (acc.reverse ++ cs) := by
  induction cs generalizing acc with
  | nil =>
    simp [splitDotsAux] at h
    simp [← h]
  | cons c cs ih =>
    by_cases hc : c = '.'
    · rw [splitDotsAux, if_pos hc] at h
      have h2 : splitDotsAux cs [] = [] := (List.cons_eq_cons.mp h).2
      exact absurd h2 (splitDotsAux_ne_nil cs [])
    · rw [splitDotsAux, if_neg hc] at h
      have := ih (c :: acc) h
      simpa using this

theorem splitDots_single (s t : String) (h : splitDots s = [t]) : t = s := by
  have := splitDotsAux_single s.data [] t h
  simpa using this

/-! ## Registry (`DuplicateSafeDict`) lemmas -/

theorem dsdGet_mem (d : List (String × Nat)) (k : String) (v : Nat)
    (h : dsdGet d k = some v) : ∃ kv, kv ∈ d ∧ kv.2 = v := by
  induction d with
  | nil => simp [dsdGet] at h
  | cons kv rest ih =>
    rw [dsdGet] at h
    by_cases hk : kv.1 == k
    · rw [if_pos hk] at h
      exact ⟨kv, List.mem_cons_self _ _, by injection h⟩
    · rw [if_neg hk] at h
      obtain ⟨kw, hm, hv⟩ := ih h
      exact ⟨kw, List.mem_cons_of_mem _ hm, hv⟩

theorem dsdGet_append_of_not_contains (d d2 : List (String × Nat)) (k : String)
    (h : dsdContains d k = false) : dsdGet (d ++ d2) k = dsdGet d2 k := by
  induction d with
  | nil => rfl
  | cons kv rest ih =>
    rw [dsdContains] at h
    rw [Bool.or_eq_false_iff] at h
    rw [List.cons_append, dsdGet, if_neg (by simp [h.1]), ih h.2]

theorem dsdContains_append_key (d : List (String × Nat)) (k : String) (v : Nat) :
    dsdContains (d ++ [(k, v)]) k = true := by
  induction d with
  | nil => simp [dsdContains]
  | cons kv rest ih => rw [List.cons_append, dsdContains, ih, Bool.or_true]

/-! ## Well-formedness extraction lemmas -/

theorem getObj_lt (r : Root) (i : Nat) (o : Obj) (h : getObj r i = some o) :
    i < r.objs.length := by
  rw [getObj] at h
  rw [List.getElem?_eq_some] at h
  exact h.1

theorem getObj_of_lt (r : Root) (i : Nat) (h : i < r.objs.length) :
    ∃ o, getObj r i = some o := by
  rw [getObj]
  exact ⟨r.objs[i], List.getElem?_eq_getElem h⟩

theorem wf_getObj (r : Root) (hwf : wfRoot r = true) (i : Nat) (o : Obj)
    (h : getObj r i = some o) : wfObj r o = true := by
  rw [wfRoot] at hwf
  rw [Bool.and_eq_true, Bool.and_eq_true] at hwf
  have hall := hwf.1.1
  rw [List.all_eq_true] at hall
  exact hall o (List.getElem?_mem h)

theorem wfObj_name (r : Root) (o : Obj) (hw : wfObj r o = true) : o.name ≠ "" := by
  rw [wfObj, Bool.and_eq_true, Bool.and_eq_true] at hw
  have := hw.1.1
  simpa using this

theorem wfObj_parent (r : Root) (o : Obj) (hw : wfObj r o = true) (p : Nat)
    (hp : o.parent = some p) :
    p < r.objs.length ∧ ∃ po, getObj r p = some po ∧ isContainer po.kind = true := by
  rw [wfObj, Bool.and_eq_true, Bool.and_eq_true] at hw
  have h := hw.1.2
  rw [hp] at h
  rw [Bool.and_eq_true] at h
  refine ⟨by simpa using h.1, ?_⟩
  have h2 := h.2
  cases hg : getObj r p with
  | none => rw [hg] at h2; simp at h2
  | some po => rw [hg] at h2; exact ⟨po, rfl, h2⟩

theorem wfObj_root_module (r : Root) (o : Obj) (hw : wfObj r o = true)
    (hp : o.parent = none) : o.kind = Kind.module := by
  rw [wfObj, Bool.and_eq_true, Bool.and_eq_true] at hw
  have h := hw.1.2
  rw [hp] at h
  simpa using h

theorem wfObj_members (r : Root) (o : Obj) (hw : wfObj r o = true) (m : Nat)
    (hm : m ∈ o.members) : m < r.objs.length := by
  rw [wfObj, Bool.and_eq_true, Bool.and_eq_true] at hw
  have h := hw.2
  rw [List.all_eq_true] at h
  simpa using h m hm

theorem wf_reg (r : Root) (hwf : wfRoot r = true) (k : String) (v : Nat)
    (h : dsdGet r.allObjects k = some v) : v < r.objs.length := by
  rw [wfRoot, Bool.and_eq_true] at hwf
  have hall := hwf.2
  rw [List.all_eq_true] at hall
  obtain ⟨kv, hm, hv⟩ := dsdGet_mem _ _ _ h
  have := hall kv hm
  simp at this
  omega

theorem findIn_mem (r : Root) (nm : String) (l : List Nat) (mid : Nat)
    (h : findIn r nm l = some mid) : mid ∈ l := by
  induction l with
  | nil => simp [findIn] at h
  | cons m rest ih =>
    cases hg : getObj r m with
    | none =>
      simp only [findIn, hg] at h
      exact List.mem_cons_of_mem _ (ih h)
    | some mo =>
      simp only [findIn, hg] at h
      by_cases hn : (mo.name == nm) = true
      · rw [if_pos hn] at h
        injection h with h
        exact h ▸ List.mem_cons_self _ _
      · rw [if_neg hn] at h
        exact List.mem_cons_of_mem _ (ih h)

theorem findIn_some (r : Root) (nm : String) (l : List Nat) (mid : Nat)
    (h : findIn r nm l = some mid) :
    ∃ mo, getObj r mid = some mo ∧ mo.name = nm := by
  induction l with
  | nil => simp [findIn] at h
  | cons m rest ih =>
    cases hg : getObj r m with
    | none =>
      simp only [findIn, hg] at h
      exact ih h
    | some mo =>
      simp only [findIn, hg] at h
      by_cases hn : (mo.name == nm) = true
      · rw [if_pos hn] at h
        injection h with h
        exact ⟨mo, h ▸ hg, by simpa using hn⟩
      · rw [if_neg hn] at h
        exact ih h

theorem getMember_valid (r : Root) (hwf : wfRoot r = true) (i : Nat) (nm : String)
    (mid : Nat) (h : getMember r i nm = some mid) : mid < r.objs.length := by
  cases hg : getObj r i with
  | none => simp [getMember, hg] at h
  | some o =>
    simp only [getMember, hg] at h
    by_cases hc : isContainer o.kind = true
    · rw [if_pos hc] at h
      exact wfObj_members r o (wf_getObj r hwf i o hg) mid (findIn_mem r nm o.members mid h)
    · rw [if_neg hc] at h
      simp at h

theorem getMember_container (r : Root) (i : Nat) (nm : String) (mid : Nat)
    (h : getMember r i nm = some mid) :
    ∃ o, getObj r i = some o ∧ isContainer o.kind = true := by
  cases hg : getObj r i with
  | none => simp [getMember, hg] at h
  | some o =>
    simp only [getMember, hg] at h
    by_cases hc : isContainer o.kind = true
    · exact ⟨o, rfl, hc⟩
    · rw [if_neg hc] at h; simp at h

theorem getMember_obj (r : Root) (i : Nat) (nm : String) (mid : Nat)
    (h : getMember r i nm = some mid) :
    ∃ mo, getObj r mid = some mo ∧ mo.name = nm := by
  cases hg : getObj r i with
  | none => simp [getMember, hg] at h
  | some o =>
    simp only [getMember, hg] at h
    by_cases hc : isContainer o.kind = true
    · rw [if_pos hc] at h
      exact findIn_some r nm o.members mid h
    · rw [if_neg hc] at h; simp at h

/-! ## `Module.all` element processing -/

theorem allElems_names (elts : List PyLit) (idx : Nat) :
    (allElems elts idx).1 = elts.filterMap litStr := by
  induction elts generalizing idx with
  | nil => rfl
  | cons e es ih =>
    cases e with
    | strL s => simp [allElems, litStr, List.filterMap_cons, ih]
    | okL => simp [allElems, litStr, List.filterMap_cons, ih]
    | badL => simp [allElems, litStr, List.filterMap_cons, ih]

theorem allElems_warns (elts : List PyLit) (idx : Nat) :
    (allElems elts idx).2.length = (elts.filter nonStrLit).length := by
  induction elts generalizing idx with
  | nil => rfl
  | cons e es ih =>
    cases e with
    | strL s => simp [allElems, nonStrLit, List.filter_cons, ih]
    | okL => simp [allElems, nonStrLit, List.filter_cons, ih]
    | badL => simp [allElems, nonStrLit, List.filter_cons, ih]

/-- C8: a `Module` whose `__all__` member's value is not a list/tuple literal
gets a diagnostic and a null `all`; elements of a list/tuple `__all__` that
are not string literals each get a diagnostic and are dropped from the result;
no malformed export list raises. -/
theorem c8_malformed_all_recovers :
    (∀ (r : Root) (mid vid : Nat) (vo : Obj),
      getMember r mid "__all__" = some vid → getObj r vid = some vo →
      vo.kind = Kind.data →
      (∀ elts, vo.value ≠ some (PyExpr.listE elts)) →
      (∀ elts, vo.value ≠ some (PyExpr.tupleE elts)) →
      (moduleAll r mid).1 = none ∧ (moduleAll r mid).2 ≠ []) ∧
    (∀ (r : Root) (mid vid : Nat) (vo : Obj) (elts : List PyLit),
      getMember r mid "__all__" = some vid → getObj r vid = some vo →
      vo.kind = Kind.data →
      (vo.value = some (PyExpr.listE elts) ∨ vo.value = some (PyExpr.tupleE elts)) →
      (moduleAll r mid).1 = some (elts.filterMap litStr) ∧
      (moduleAll r mid).2.length = (elts.filter nonStrLit).length) := by
  constructor
  · intro r mid vid vo hm hg hk hnl hnt
    simp only [moduleAll, hm, hg]
    rw [if_pos hk]
    cases hv : vo.value with
    | none => exact ⟨rfl, by simp⟩
    | some e =>
      cases e with
      | nameE parts => exact ⟨rfl, by simp⟩
      | strE s => exact ⟨rfl, by simp⟩
      | intE n => exact ⟨rfl, by simp⟩
      | listE elts => exact absurd hv (hnl elts)
      | tupleE elts => exact absurd hv (hnt elts)
      | otherE => exact ⟨rfl, by simp⟩
  · intro r mid vid vo elts hm hg hk hv
    simp only [moduleAll, hm, hg]
    rw [if_pos hk]
    rcases hv with hv | hv <;> rw [hv] <;>
      exact ⟨by show some (allElems elts 0).1 = _; rw [allElems_names],
        by show (allElems elts 0).2.length = _; rw [allElems_warns]⟩

theorem c8_malformed_all_recovers_witness :
    ((moduleAll badAllTree 0).1 = none ∧ (moduleAll badAllTree 0).2 ≠ []) ∧
    (moduleAll mixedAllTree 0).1 =
      some ([PyLit.strL "a", PyLit.okL, PyLit.badL, PyLit.strL "b"].filterMap litStr) ∧
    (moduleAll mixedAllTree 0).2.length =
      ([PyLit.strL "a", PyLit.okL, PyLit.badL, PyLit.strL "b"].filter nonStrLit).length := by
  refine ⟨?_, ?_⟩
  · exact c8_malformed_all_recovers.1 badAllTree 0 1
      (mkData "__all__" (some 0) (some (PyExpr.intE 3)))
      (by decide) (by decide) (by decide) (fun elts h => by simp [badAllTree, mkData] at h)
      (fun elts h => by simp [badAllTree, mkData] at h)
  · exact c8_malformed_all_recovers.2 mixedAllTree 0 1
      (mkData "__all__" (some 0)
        (some (PyExpr.listE [PyLit.strL "a", PyLit.okL, PyLit.badL, PyLit.strL "b"])))
      [PyLit.strL "a", PyLit.okL, PyLit.badL, PyLit.strL "b"]
      (by decide) (by decide) (by decide) (Or.inl (by decide))

/-- C9: the registry never overwrites — adding a key that is already present
is a no-op, looking up after two same-key registrations yields the first
value, and any entity returned by `resolve_name` is the first-registered
binding of some registry key. -/
theorem c9_registry_first_wins :
    (∀ (d : List (String × Nat)) (k : String) (v : Nat),
      dsdContains d k = true → dsdAdd d (k, v) = d) ∧
    (∀ (d : List (String × Nat)) (k : String) (v1 v2 : Nat),
      dsdContains d k = false →
      dsdGet (dsdAdd (dsdAdd d (k, v1)) (k, v2)) k = some v1) ∧
    (∀ (r : Root) (fuel ctx : Nat) (nm : String) (v : Nat),
      resolveNameF r fuel ctx nm true = Except.ok (some v) →
      ∃ s, dsdGet r.allObjects s = some v) := by
  refine ⟨?_, ?_, ?_⟩
  · intro d k v h
    rw [dsdAdd, if_pos h]
  · intro d k v1 v2 h
    have h1 : dsdAdd d (k, v1) = d ++ [(k, v1)] := by rw [dsdAdd, if_neg (by simp [h])]
    have h2 : dsdContains (d ++ [(k, v1)]) k = true := dsdContains_append_key d k v1
    rw [h1, dsdAdd, if_pos h2]
    rw [dsdGet_append_of_not_contains d [(k, v1)] k h]
    simp [dsdGet]
  · intro r fuel ctx nm v h
    cases fuel with
    | zero => simp [resolveNameF] at h
    | succ f =>
      rw [resolveNameF] at h
      cases he : expandParts r f ctx true (splitDots nm) true [] with
      | error e => rw [he] at h; simp at h
      | ok s =>
        rw [he] at h
        injection h with h
        exact ⟨s, h⟩

theorem c9_registry_first_wins_witness :
    dsdAdd [("m", 0)] ("m", 1) = [("m", 0)] ∧
    dsdGet (dsdAdd (dsdAdd [] ("m.x", 3)) ("m.x", 7)) "m.x" = some 3 ∧
    (resolveNameF indirectionTree 32 0 "m.i" true = Except.ok (some 2) →
      ∃ s, dsdGet indirectionTree.allObjects s = some 2) := by
  refine ⟨?_, ?_, ?_⟩
  · exact c9_registry_first_wins.1 [("m", 0)] "m" 1 (by decide)
  · exact c9_registry_first_wins.2.1 [] "m.x" 3 7 (by decide)
  · exact fun h => c9_registry_first_wins.2.2 indirectionTree 32 0 "m.i" 2 h

/-- C10: `Module.docformat` is computed from the member named `__all__`: when
the module has no `Data` member named `__all__` it is null whatever
`__docformat__` member exists, and a `Data` `__all__` holding a non-blank
string makes `docformat` return that string. -/
theorem c10_docformat_reads_all :
    (∀ (r : Root) (mid : Nat),
      (∀ vid vo, getMember r mid "__all__" = some vid → getObj r vid = some vo →
        vo.kind ≠ Kind.data) →
      (docformatF r mid).1 = none) ∧
    (∀ (r : Root) (mid vid : Nat) (vo : Obj) (s : String),
      getMember r mid "__all__" = some vid → getObj r vid = some vo →
      vo.kind = Kind.data → vo.value = some (PyExpr.strE s) → pyStrip s ≠ "" →
      (docformatF r mid).1 = some s) := by
  constructor
  · intro r mid h
    cases hm : getMember r mid "__all__" with
    | none => simp only [docformatF, hm]
    | some vid =>
      cases hg : getObj r vid with
      | none => simp only [docformatF, hm, hg]
      | some vo =>
        simp only [docformatF, hm, hg]
        rw [if_neg (by simpa using h vid vo hm hg)]
  · intro r mid vid vo s hm hg hk hv ht
    simp only [docformatF, hm, hg]
    rw [if_pos hk, hv]
    show (if pyStrip s = "" then ((none : Option String), ["Cannot parse value assigned to \"__docformat__\": empty value"]) else (some s, [])).1 = some s
    rw [if_neg ht]

theorem c10_docformat_reads_all_witness :
    (docformatF docfmtOnlyTree 0).1 = none ∧
    (docformatF allStrTree 0).1 = some "epytext" := by
  constructor
  · exact c10_docformat_reads_all.1 docfmtOnlyTree 0
      (fun vid vo h _ => by
        rw [(by decide : getMember docfmtOnlyTree 0 "__all__" = (none : Option Nat))] at h
        cases h)
  · exact c10_docformat_reads_all.2 allStrTree 0 1
      (mkData "__all__" (some 0) (some (PyExpr.strE "epytext"))) "epytext"
      (by decide) (by decide) (by decide) (by decide) (by decide)

/-- C4 (amended): `_resolve_indirection` invoked with a chain of more than 5
entries returns the full name of the chain's first indirection without
recursing; consequently chains of up to 6 aliases resolve to their origin
(`chainTree6` resolves `a1` to `m.x`), while chains of 7 or more degrade to
the original alias's own full name (`chainTree7` yields `m.a1`). -/
theorem c4_recursion_bound :
    (∀ (r : Root) (ind i0 : Ind) (rest : List Ind) (fuel : Nat),
      RESOLVE_ALIAS_MAX_RECURSE < (i0 :: rest).length →
      resolveIndirection r (fuel + 1) ind (i0 :: rest) =
        match indFullName r fuel i0 with
        | Except.error e => Except.error e
        | Except.ok s => Except.ok (some s)) ∧
    expandName chainTree6 64 0 "a1" true [] = Except.ok "m.x" ∧
    expandName chainTree7 64 0 "a1" true [] = Except.ok "m.a1" := by
  refine ⟨?_, by decide, by decide⟩
  intro r ind i0 rest fuel h
  simp only [resolveIndirection]
  rw [if_pos h]
  rfl

/-- C4 counterexample: a chain of 6 aliases (more than 5) still resolves all
the way to its origin `m.x`, not to the first alias's own full name `m.a1`. -/
theorem c4_counterexample :
    expandName chainTree6 64 0 "a1" true [] = Except.ok "m.x" ∧
    fullNameF chainTree6 8 1 = Except.ok "m.a1" ∧
    ("m.x" : String) ≠ "m.a1" := by
  exact ⟨by decide, by decide, by decide⟩

theorem c4_recursion_bound_witness :
    resolveIndirection chainTree7 9 ⟨some 0, "a7", "x"⟩
      [⟨some 0, "a1", "a2"⟩, ⟨some 0, "a2", "a3"⟩, ⟨some 0, "a3", "a4"⟩,
       ⟨some 0, "a4", "a5"⟩, ⟨some 0, "a5", "a6"⟩, ⟨some 0, "a6", "a7"⟩] =
      match indFullName chainTree7 8 ⟨some 0, "a1", "a2"⟩ with
      | Except.error e => Except.error e
      | Except.ok s => Except.ok (some s) :=
  c4_recursion_bound.1 chainTree7 ⟨some 0, "a7", "x"⟩ ⟨some 0, "a1", "a2"⟩
    [⟨some 0, "a2", "a3"⟩, ⟨some 0, "a3", "a4"⟩, ⟨some 0, "a4", "a5"⟩,
     ⟨some 0, "a5", "a6"⟩, ⟨some 0, "a6", "a7"⟩] 8 (by decide)

/-- C5: on a direct self-referential indirection (the chain's last entry is
this same indirection), resolution terminates: with no parent scope, or with
a parent lying in a different module, it returns `none` and the caller falls
back to the member's own full name; with a parent in the same module it
retries the lookup from the parent's scope; the concrete `X = X` trees
resolve deterministically, including the different-module one. -/
theorem c5_self_alias_terminates :
    (∀ (r : Root) (ind : Ind) (ctx : Nat) (co : Obj) (chain : List Ind) (fuel : Nat),
      ¬ RESOLVE_ALIAS_MAX_RECURSE < chain.length →
      chain.getLast? = some ind → ind.parent = some ctx → getObj r ctx = some co →
      co.parent = none →
      resolveIndirection r (fuel + 1) ind chain = Except.ok none) ∧
    (∀ (r : Root) (ind : Ind) (ctx cp : Nat) (co : Obj) (chain : List Ind) (fuel m1 m2 : Nat),
      ¬ RESOLVE_ALIAS_MAX_RECURSE < chain.length →
      chain.getLast? = some ind → ind.parent = some ctx → getObj r ctx = some co →
      co.parent = some cp → moduleF r fuel ctx = Except.ok m1 → moduleF r fuel cp = Except.ok m2 →
      m1 ≠ m2 →
      resolveIndirection r (fuel + 1) ind chain = Except.ok none) ∧
    (∀ (r : Root) (ind : Ind) (ctx cp : Nat) (co : Obj) (chain : List Ind) (fuel m1 : Nat),
      ¬ RESOLVE_ALIAS_MAX_RECURSE < chain.length →
      chain.getLast? = some ind → ind.parent = some ctx → getObj r ctx = some co →
      co.parent = some cp → moduleF r fuel ctx = Except.ok m1 → moduleF r fuel cp = Except.ok m1 →
      resolveIndirection r (fuel + 1) ind chain =
        match expandParts r fuel cp true (splitDots ind.target) true (chain ++ [ind]) with
        | Except.error e => Except.error e
        | Except.ok s => Except.ok (some s)) ∧
    (∀ (r : Root) (fuel i mid : Nat) (o mo : Obj) (nm : String) (follow : Bool)
        (chain : List Ind),
      getObj r i = some o → isContainer o.kind = true → getMember r i nm = some mid →
      getObj r mid = some mo → mo.kind = Kind.indirection →
      resolveIndirection r fuel ⟨mo.parent, mo.name, mo.target⟩ chain = Except.ok none →
      localToFullName r (fuel + 1) i nm follow chain = fullNameF r fuel mid) ∧
    expandName selfAliasTree 32 0 "X" true [] = Except.ok "m.X" ∧
    expandName nestedSelfAliasTree 32 1 "X" true [] = Except.ok "m.X" ∧
    expandName diffModSelfAliasTree 32 1 "X" true [] = Except.ok "p.q.X" := by
  refine ⟨?_, ?_, ?_, ?_, by decide, by decide, by decide⟩
  · intro r ind ctx co chain fuel hlen hlast hp hg hcp
    simp only [resolveIndirection, hp, hg, hcp]
    rw [if_neg hlen, if_pos hlast]
  · intro r ind ctx cp co chain fuel m1 m2 hlen hlast hp hg hcp hm1 hm2 hne
    simp only [resolveIndirection, hp, hg, hcp, hm1, hm2]
    rw [if_neg hlen, if_pos hlast, if_neg hne]
  · intro r ind ctx cp co chain fuel m1 hlen hlast hp hg hcp hm1 hm2
    simp only [resolveIndirection, hp, hg, hcp, hm1, hm2]
    rw [if_neg hlen, if_pos hlast, if_pos trivial]
  · intro r fuel i mid o mo nm follow chain hg hc hm hgm hk hri
    simp only [localToFullName, hg, hm, hgm, hk, hri]
    rw [if_pos hc]
    cases follow <;> rfl

theorem c5_self_alias_terminates_witness :
    resolveIndirection selfAliasTree 9 ⟨some 0, "X", "X"⟩ [⟨some 0, "X", "X"⟩] =
      Except.ok none ∧
    resolveIndirection diffModSelfAliasTree 9 ⟨some 1, "X", "X"⟩ [⟨some 1, "X", "X"⟩] =
      Except.ok none ∧
    localToFullName indirectionTree 9 0 "i" true [⟨some 0, "i", "x"⟩, ⟨some 0, "i", "x"⟩] =
      fullNameF indirectionTree 8 1 := by
  refine ⟨?_, ?_, ?_⟩
  · exact c5_self_alias_terminates.1 selfAliasTree ⟨some 0, "X", "X"⟩ 0
      (mkO "m" Kind.module none [1]) [⟨some 0, "X", "X"⟩] 8
      (by decide) (by decide) (by decide) (by decide) (by decide)
  · exact c5_self_alias_terminates.2.1 diffModSelfAliasTree ⟨some 1, "X", "X"⟩ 1 0
      (mkO "q" Kind.module (some 0) [2]) [⟨some 1, "X", "X"⟩] 8 1 0
      (by decide) (by decide) (by decide) (by decide) (by decide) (by decide)
      (by decide) (by decide)
  · exact c5_self_alias_terminates.2.2.2.1 indirectionTree 8 0 1
      (mkO "m" Kind.module none [1, 2]) (mkIndO "i" 0 "x") "i" true
      [⟨some 0, "i", "x"⟩, ⟨some 0, "i", "x"⟩]
      (by decide) (by decide) (by decide) (by decide) (by decide) (by decide)

/-- C6: for `class C(A, B)` whose resolved bases are the classes `A` then `B`,
where `C` has no direct member `nm` and `A` does, `find` scans self first,
then `A`'s chain, and returns `A`'s member. -/
theorem c6_find_first_base (r : Root) (fuel C A B x : Nat) (oa : Obj) (nm : String)
    (hrb : resolvedBases r fuel C = Except.ok [RBase.obj A, RBase.obj B])
    (hcm : getMember r C nm = none)
    (hga : getObj r A = some oa) (hka : oa.kind = Kind.cls)
    (ham : getMember r A nm = some x) :
    findMember r (fuel + 1) C nm = Except.ok (some x) := by
  cases fuel with
  | zero => simp [resolvedBases] at hrb
  | succ g =>
    have hg1 : ∃ h, g = h + 1 := by
      cases g with
      | zero =>
        cases hgo : getObj r C with
        | none => simp [resolvedBases, hgo] at hrb
        | some o =>
          cases hpo : o.parent with
          | none => simp [resolvedBases, hgo, hpo] at hrb
          | some p => simp [resolvedBases, hgo, hpo, resolveBaseList] at hrb
      | succ h => exact ⟨h, rfl⟩
    obtain ⟨h, rfl⟩ := hg1
    simp only [findMember, hcm]
    rw [hrb]
    simp only [scanBases, hga]
    rw [if_pos hka]
    have hfa : findMember r (h + 1) A nm = Except.ok (some x) := by
      simp only [findMember, ham]
    rw [hfa]

theorem c6_find_first_base_witness :
    findMember diamondTree 17 2 "mm" = Except.ok (some 3) :=
  c6_find_first_base diamondTree 16 2 1 4 3
    ⟨"A", Kind.cls, some 0, [3], [], none, ""⟩ "mm"
    (by decide) (by decide) (by decide) (by decide) (by decide)

/-! ## Fuel monotonicity and scope-walk lemmas -/

theorem fullNameF_mono (r : Root) :
    ∀ f i s, fullNameF r f i = Except.ok s → ∀ g, f ≤ g → fullNameF r g i = Except.ok s := by
  intro f
  induction f with
  | zero => intro i s h; simp [fullNameF] at h
  | succ f ih =>
    intro i s h g hg
    obtain ⟨g', rfl⟩ : ∃ g', g = g' + 1 := ⟨g - 1, by omega⟩
    cases hgo : getObj r i with
    | none => simp [fullNameF, hgo] at h
    | some o =>
      cases hp : o.parent with
      | none =>
        simp only [fullNameF, hgo, hp] at h ⊢
        exact h
      | some p =>
        simp only [fullNameF, hgo, hp] at h ⊢
        cases hrec : fullNameF r f p with
        | error e => rw [hrec] at h; cases h
        | ok t =>
          rw [hrec] at h
          rw [ih p t hrec g' (by omega)]
          exact h

/-- One `expand_name` loop iteration in which the part resolved and the
not-found branch is not taken. -/
theorem expandParts_step (r : Root) (fuel ctx : Nat) (first : Bool) (part : String)
    (rest : List String) (follow : Bool) (chain : List Ind) (fn : String)
    (hl : localToFullName r fuel ctx part follow chain = Except.ok fn)
    (hne : (fn == part && !first) = false) :
    expandParts r (fuel + 1) ctx first (part :: rest) follow chain =
      proceedPart r fuel fn rest follow chain := by
  simp only [expandParts, hl, hne]
  simp

theorem proceedPart_break (r : Root) (fuel : Nat) (fn : String) (rest : List String)
    (follow : Bool) (chain : List Ind) (hd : dsdGet r.allObjects fn = none) :
    proceedPart r (fuel + 1) fn rest follow chain = Except.ok (joinDots (fn :: rest)) := by
  simp only [proceedPart, hd]

theorem proceedPart_last (r : Root) (fuel : Nat) (fn : String) (follow : Bool)
    (chain : List Ind) :
    proceedPart r (fuel + 1) fn [] follow chain = Except.ok fn := by
  simp only [proceedPart]
  cases hd : dsdGet r.allObjects fn with
  | none => rfl
  | some nxt => rfl

theorem resolveNameF_of_expand (r : Root) (fuel ctx : Nat) (nm s : String) (follow : Bool)
    (h : expandParts r fuel ctx true (splitDots nm) follow [] = Except.ok s) :
    resolveNameF r (fuel + 1) ctx nm follow = Except.ok (dsdGet r.allObjects s) := by
  simp only [resolveNameF, h]

/-- A `startswith` check for the registry hypothesis of C2 (does `s` start
with `p`?). -/
def strStarts (s p : String) : Bool :=
  s.data.take p.data.length == p.data

theorem dsdGet_mem_key (d : List (String × Nat)) (k : String) (v : Nat)
    (h : dsdGet d k = some v) : ∃ kv, kv ∈ d ∧ kv.1 = k ∧ kv.2 = v := by
  induction d with
  | nil => simp [dsdGet] at h
  | cons kv rest ih =>
    rw [dsdGet] at h
    by_cases hk : (kv.1 == k) = true
    · rw [if_pos hk] at h
      exact ⟨kv, List.mem_cons_self _ _, by simpa using hk, by injection h⟩
    · rw [if_neg hk] at h
      obtain ⟨kw, hm, hv⟩ := ih h
      exact ⟨kw, List.mem_cons_of_mem _ hm, hv⟩

theorem dsdGet_none_of_starts (d : List (String × Nat)) (p : String)
    (hreg : ∀ kv ∈ d, strStarts kv.1 p = false) (k : String)
    (hk : strStarts k p = true) : dsdGet d k = none := by
  cases hg : dsdGet d k with
  | none => rfl
  | some v =>
    obtain ⟨kv, hm, hke, _⟩ := dsdGet_mem_key d k v hg
    have := hreg kv hm
    rw [hke, hk] at this
    cases this

theorem findIn_none_of_no_name (r : Root) (nm : String)
    (hno : ∀ o ∈ r.objs, o.name ≠ nm) : ∀ l, findIn r nm l = none := by
  intro l
  induction l with
  | nil => rfl
  | cons m rest ih =>
    cases hg : getObj r m with
    | none => simp only [findIn, hg]; exact ih
    | some mo =>
      have hmem : mo ∈ r.objs := List.getElem?_mem hg
      simp only [findIn, hg]
      rw [if_neg (by simpa using hno mo hmem)]
      exact ih

theorem getMember_none_of_no_name (r : Root) (nm : String)
    (hno : ∀ o ∈ r.objs, o.name ≠ nm) (i : Nat) : getMember r i nm = none := by
  cases hg : getObj r i with
  | none => simp [getMember, hg]
  | some o =>
    simp only [getMember, hg]
    rw [findIn_none_of_no_name r nm hno o.members]
    simp

/-- If no object of the tree at all bears the looked-up name, the
`_local_to_full_name` walk falls through every scope and returns the name
unchanged. -/
theorem ltf_walk_not_found (r : Root) (hwf : wfRoot r = true) (nm : String)
    (hno : ∀ o ∈ r.objs, o.name ≠ nm) :
    ∀ n i fuel follow chain, reachesRoot r n i = true → n ≤ fuel →
      localToFullName r fuel i nm follow chain = Except.ok nm := by
  intro n
  induction n with
  | zero => intro i fuel follow chain h _; simp [reachesRoot] at h
  | succ n ih =>
    intro i fuel follow chain h hle
    obtain ⟨f, rfl⟩ : ∃ f, fuel = f + 1 := ⟨fuel - 1, by omega⟩
    cases hgo : getObj r i with
    | none => simp [reachesRoot, hgo] at h
    | some o =>
      have hw := wf_getObj r hwf i o hgo
      simp only [reachesRoot, hgo] at h
      simp only [localToFullName, hgo]
      by_cases hc : isContainer o.kind = true
      · rw [if_pos hc, getMember_none_of_no_name r nm hno i]
        by_cases hcls : o.kind = Kind.cls
        · rw [if_pos hcls]
          cases hp : o.parent with
          | none =>
            have := wfObj_root_module r o hw hp
            rw [this] at hcls
            cases hcls
          | some p =>
            rw [hp] at h
            exact ih p f follow chain h (by omega)
        · rw [if_neg hcls]
      · rw [if_neg hc]
        cases hp : o.parent with
        | none =>
          have := wfObj_root_module r o hw hp
          rw [this] at hc
          simp [isContainer] at hc
        | some p =>
          rw [hp] at h
          exact ih p f follow chain h (by omega)

/-- C2 counterexample: in a tree consisting of one empty module `m` (whose
registry has no key starting with `os`), `expand_name(m, "os.path.join")`
returns the input unchanged, not `m.os.path.join` — the first-part fallback
never prefixes the calling scope. -/
theorem c2_counterexample :
    expandName oneModTree 16 0 "os.path.join" true [] = Except.ok "os.path.join" ∧
    fullNameF oneModTree 4 0 = Except.ok "m" ∧
    (∀ kv ∈ oneModTree.allObjects, strStarts kv.1 "os" = false) ∧
    ("os.path.join" : String) ≠ "m" ++ "." ++ "os.path.join" := by
  refine ⟨by decide, by decide, by decide, by decide⟩

/-- C2 (amended): for an entity in a tree where no object is named `os` and
no registry key starts with `os`, `expand_name` on `os.path.join` returns
`os.path.join` unchanged (no calling-scope prefix) and `resolve_name` is
null. -/
theorem c2_unresolvable_unchanged (r : Root) (hwf : wfRoot r = true) (i fuel : Nat)
    (hno : ∀ o ∈ r.objs, o.name ≠ "os")
    (hreg : ∀ kv ∈ r.allObjects, strStarts kv.1 "os" = false)
    (hreach : reachesRoot r (r.objs.length + 1) i = true)
    (hfuel : r.objs.length + 3 ≤ fuel) :
    expandName r fuel i "os.path.join" true [] = Except.ok "os.path.join" ∧
    resolveNameF r (fuel + 1) i "os.path.join" true = Except.ok none := by
  have hsplit : splitDots "os.path.join" = ["os", "path", "join"] := by decide
  have hmain : expandParts r fuel i true ["os", "path", "join"] true [] =
      Except.ok "os.path.join" := by
    obtain ⟨f, rfl⟩ : ∃ f, fuel = f + 1 := ⟨fuel - 1, by omega⟩
    obtain ⟨g, rfl⟩ : ∃ g, f = g + 1 := ⟨f - 1, by omega⟩
    rw [expandParts_step r (g + 1) i true "os" ["path", "join"] true [] "os"
      (ltf_walk_not_found r hwf "os" hno (r.objs.length + 1) i (g + 1) true []
        hreach (by omega))
      (by simp)]
    rw [proceedPart_break r g "os" ["path", "join"] true []
      (dsdGet_none_of_starts r.allObjects "os" hreg "os" (by decide))]
    decide
  constructor
  · rw [expandName, hsplit]
    exact hmain
  · have := resolveNameF_of_expand r fuel i "os.path.join" "os.path.join" true
      (by rw [hsplit]; exact hmain)
    rw [this]
    rw [dsdGet_none_of_starts r.allObjects "os" hreg "os.path.join" (by decide)]

theorem c2_unresolvable_unchanged_witness :
    expandName oneModTree 4 0 "os.path.join" true [] = Except.ok "os.path.join" ∧
    resolveNameF oneModTree 5 0 "os.path.join" true = Except.ok none :=
  c2_unresolvable_unchanged oneModTree (by decide) 0 4 (by decide) (by decide)
    (by decide) (by decide)

/-- If the delegation walk from `i` reaches container `K` whose first member
named `nm` is `mid` — a member that is neither an alias `Data` nor an
`Indirection` — then `_local_to_full_name` returns that member's full name. -/
theorem ltf_walk_member (r : Root) ( _hwf : wfRoot r = true) (nm s : String) (mid : Nat)
    (mo : Obj) (hgm : getObj r mid = some mo)
    (hni : mo.kind ≠ Kind.indirection) (hna : ¬(mo.kind = Kind.data ∧ isAlias mo = true))
    (hfn : fullNameF r (r.objs.length + 1) mid = Except.ok s) :
    ∀ n i fuel K follow chain, nearestContainerF r n i = Except.ok K →
      getMember r K nm = some mid →
      n + r.objs.length + 1 ≤ fuel →
      localToFullName r fuel i nm follow chain = Except.ok s := by
  intro n
  induction n with
  | zero => intro i fuel K follow chain h _ _; simp [nearestContainerF] at h
  | succ n ih =>
    intro i fuel K follow chain h hm hle
    obtain ⟨f, rfl⟩ : ∃ f, fuel = f + 1 := ⟨fuel - 1, by omega⟩
    cases hgo : getObj r i with
    | none => simp [nearestContainerF, hgo] at h
    | some o =>
      simp only [nearestContainerF, hgo] at h
      by_cases hc : isContainer o.kind = true
      · rw [if_pos hc] at h
        injection h with h
        subst h
        simp only [localToFullName, hgo]
        rw [if_pos hc, hm]
        simp only [hgm]
        have hb : (decide (mo.kind = Kind.data) && isAlias mo) = false := by
          cases hd : decide (mo.kind = Kind.data) with
          | false => rfl
          | true =>
            simp only [Bool.true_and]
            cases ha : isAlias mo with
            | false => rfl
            | true => exact absurd ⟨of_decide_eq_true hd, ha⟩ hna
        rw [hb, Bool.and_false, if_neg (by simp), if_neg hni]
        exact fullNameF_mono r (r.objs.length + 1) mid s hfn f (by omega)
      · rw [if_neg hc] at h
        cases hp : o.parent with
        | none => rw [hp] at h; cases h
        | some p =>
          rw [hp] at h
          simp only [localToFullName, hgo]
          rw [if_neg hc, hp]
          exact ih p f K follow chain h hm (by omega)

/-- C3 counterexample: `b` is a direct member of module `m`, and `a = b` is an
alias member of `m`; from the entity `m.b`, `expand_name("a")` returns the
alias's origin `m.b`, not the member `a`'s own full name `m.a`. -/
theorem c3_counterexample :
    expandName aliasPairTree 32 2 "a" true [] = Except.ok "m.b" ∧
    getMember aliasPairTree 0 "a" = some 1 ∧
    fullNameF aliasPairTree 4 1 = Except.ok "m.a" ∧
    ("m.b" : String) ≠ "m.a" := by
  refine ⟨by decide, by decide, by decide, by decide⟩

/-- C3 (amended): for an entity `E` and a (dot-free) local name `N` naming a
direct member of `E`'s nearest container (itself included) that is neither an
alias `Data` nor an `Indirection`, `expand_name(E, N)` returns that member's
own full name. -/
theorem c3_member_expands_to_full_name (r : Root) (hwf : wfRoot r = true)
    (i K mid fuel : Nat) (mo : Obj) (N s : String)
    (hK : nearestContainerF r (r.objs.length + 1) i = Except.ok K)
    (hm : getMember r K N = some mid) (hgm : getObj r mid = some mo)
    (hni : mo.kind ≠ Kind.indirection) (hna : ¬(mo.kind = Kind.data ∧ isAlias mo = true))
    (hsplit : splitDots N = [N])
    (hfn : fullNameF r (r.objs.length + 1) mid = Except.ok s)
    (hfuel : 2 * r.objs.length + 4 ≤ fuel) :
    expandName r fuel i N true [] = Except.ok s := by
  rw [expandName, hsplit]
  obtain ⟨f, rfl⟩ : ∃ f, fuel = f + 1 := ⟨fuel - 1, by omega⟩
  obtain ⟨g, rfl⟩ : ∃ g, f = g + 1 := ⟨f - 1, by omega⟩
  rw [expandParts_step r (g + 1) i true N [] true [] s
    (ltf_walk_member r hwf N s mid mo hgm hni hna hfn (r.objs.length + 1) i (g + 1) K true []
      hK hm (by omega))
    (by simp)]
  exact proceedPart_last r g s true []

theorem c3_member_expands_to_full_name_witness :
    expandName aliasPairTree 10 1 "b" true [] = Except.ok "m.b" :=
  c3_member_expands_to_full_name aliasPairTree (by decide) 1 0 2 10
    (mkData "b" (some 0) none) "b" "m.b"
    (by decide) (by decide) (by decide) (by decide)
    (by decide) (by decide) (by decide) (by decide)

/-! ## Canonical ancestor chains (for the C7 round-trip) -/

/-- The local name of object `j` (empty for an out-of-range index). -/
def nameOf (r : Root) (j : Nat) : String :=
  match getObj r j with
  | some o => o.name
  | none => ""

/-- Continuation of `proceedPart` when the registry lookup succeeds and parts
remain. -/
theorem proceedPart_go (r : Root) (fuel : Nat) (fn p : String) (rest : List String)
    (follow : Bool) (chain : List Ind) (nxt : Nat)
    (hd : dsdGet r.allObjects fn = some nxt) :
    proceedPart r (fuel + 1) fn (p :: rest) follow chain =
      expandParts r fuel nxt false (p :: rest) follow chain := by
  simp only [proceedPart, hd]

/-- `canonChainAux r prev prevFull l`: each element of `l` is the first member
with its name in the previous element, and the registry's first binding for
each accumulated full name is that element. -/
def canonChainAux (r : Root) : Nat → String → List Nat → Bool
  | _, _, [] => true
  | prev, prevFull, j :: rest =>
    match getObj r j with
    | some oj =>
      decide (oj.parent = some prev) &&
      decide (getMember r prev oj.name = some j) &&
      decide (dsdGet r.allObjects (prevFull ++ "." ++ oj.name) = some j) &&
      canonChainAux r j (prevFull ++ "." ++ oj.name) rest
    | none => false

/-- A canonically indexed ancestor chain: a parentless root whose name is its
own first registry binding and that has no member named after itself,
followed by a `canonChainAux` chain. -/
def canonChain (r : Root) : List Nat → Bool
  | [] => false
  | root :: rest =>
    match getObj r root with
    | some o =>
      decide (o.parent = none) &&
      decide (dsdGet r.allObjects o.name = some root) &&
      decide (getMember r root o.name = none) &&
      canonChainAux r root o.name rest
    | none => false

/-- Fold a name sequence onto a base full name. -/
def chainFull (base : String) : List String → String
  | [] => base
  | n :: rest => chainFull (base ++ "." ++ n) rest

theorem isContainer_kinds (k : Kind) (h : isContainer k = true) :
    k ≠ Kind.data ∧ k ≠ Kind.indirection := by
  cases k <;> simp_all [isContainer]

/-- The registry's first binding for the full name accumulated along a
canonical chain is the chain's last element. -/
theorem canonLast (r : Root) (E : Nat) :
    ∀ rest prev prevFull, canonChainAux r prev prevFull rest = true →
      rest.getLast? = some E →
      dsdGet r.allObjects (chainFull prevFull (rest.map (nameOf r))) = some E := by
  intro rest
  induction rest with
  | nil => intro prev prevFull _ hl; cases hl
  | cons j rest ih =>
    intro prev prevFull hch hl
    cases hgj : getObj r j with
    | none => simp [canonChainAux, hgj] at hch
    | some oj =>
      simp only [canonChainAux, hgj, Bool.and_eq_true] at hch
      obtain ⟨⟨⟨_, _⟩, hdg⟩, hrest⟩ := hch
      have hdg' := of_decide_eq_true hdg
      cases rest with
      | nil =>
        simp only [List.getLast?_singleton] at hl
        injection hl with hl
        subst hl
        simp only [List.map_cons, List.map_nil, chainFull]
        rw [show nameOf r j = oj.name from by rw [nameOf, hgj]]
        exact hdg'
      | cons j2 rest2 =>
        rw [List.getLast?_cons_cons] at hl
        simp only [List.map_cons, chainFull]
        rw [show nameOf r j = oj.name from by rw [nameOf, hgj]]
        exact ih j (prevFull ++ "." ++ oj.name) hrest hl

/-- Walking a canonical chain with `expand_name` (from the second part on)
produces the accumulated full name. -/
theorem canonWalk (r : Root) (E : Nat) (oe : Obj)
    (hgE : getObj r E = some oe)
    (hni : oe.kind ≠ Kind.indirection)
    (hna : ¬(oe.kind = Kind.data ∧ isAlias oe = true)) :
    ∀ (rest : List Nat) (prev : Nat) (prevFull : String) (gp fuel : Nat),
      canonChainAux r prev prevFull rest = true →
      fullNameF r gp prev = Except.ok prevFull →
      rest.getLast? = some E →
      gp + 3 * rest.length + 1 ≤ fuel →
      expandParts r fuel prev false (rest.map (nameOf r)) true [] =
        Except.ok (chainFull prevFull (rest.map (nameOf r))) := by
  intro rest
  induction rest with
  | nil => intro prev prevFull gp fuel _ _ hl; cases hl
  | cons j rest ih =>
    intro prev prevFull gp fuel hch hfull hl hle
    simp only [List.length_cons] at hle
    cases hgj : getObj r j with
    | none => simp [canonChainAux, hgj] at hch
    | some oj =>
      simp only [canonChainAux, hgj, Bool.and_eq_true] at hch
      obtain ⟨⟨⟨hpar, hmem⟩, hdg⟩, hrest⟩ := hch
      have hpar' := of_decide_eq_true hpar
      have hmem' := of_decide_eq_true hmem
      have hdg' := of_decide_eq_true hdg
      obtain ⟨fz, rfl⟩ : ∃ fz, fuel = fz + 3 := ⟨fuel - 3, by omega⟩
      have hnm : nameOf r j = oj.name := by rw [nameOf, hgj]
      -- the member's kind rules out the alias and indirection branches
      have hknd : ¬(oj.kind = Kind.data ∧ isAlias oj = true) ∧ oj.kind ≠ Kind.indirection := by
        cases rest with
        | nil =>
          simp only [List.getLast?_singleton] at hl
          injection hl with hl
          subst hl
          rw [hgE] at hgj
          injection hgj with hgj
          subst hgj
          exact ⟨hna, hni⟩
        | cons j2 rest2 =>
          cases hgj2 : getObj r j2 with
          | none => simp [canonChainAux, hgj2] at hrest
          | some oj2 =>
            simp only [canonChainAux, hgj2, Bool.and_eq_true] at hrest
            have hmem2 := of_decide_eq_true hrest.1.1.2
            obtain ⟨o', hgo', hc'⟩ := getMember_container r j oj2.name j2 hmem2
            rw [hgj] at hgo'
            injection hgo' with hgo'
            subst hgo'
            have := isContainer_kinds oj.kind hc'
            exact ⟨fun hcon => this.1 hcon.1, this.2⟩
      -- prev is a container since it has the member j
      obtain ⟨po, hgprev, hcprev⟩ := getMember_container r prev oj.name j hmem'
      -- the member's full name, one parent step above prev's
      have hfj : fullNameF r (fz + 1) j = Except.ok (prevFull ++ "." ++ oj.name) := by
        simp only [fullNameF, hgj, hpar']
        rw [fullNameF_mono r gp prev prevFull hfull fz (by omega)]
      -- _local_to_full_name finds the member and returns its full name
      have hltf : localToFullName r (fz + 2) prev oj.name true [] =
          Except.ok (prevFull ++ "." ++ oj.name) := by
        simp only [localToFullName, hgprev]
        rw [if_pos hcprev, hmem']
        simp only [hgj]
        have hb : (decide (oj.kind = Kind.data) && isAlias oj) = false := by
          cases hd : decide (oj.kind = Kind.data) with
          | false => rfl
          | true =>
            simp only [Bool.true_and]
            cases ha : isAlias oj with
            | false => rfl
            | true => exact absurd ⟨of_decide_eq_true hd, ha⟩ hknd.1
        rw [hb, Bool.and_false, if_neg (by simp), if_neg hknd.2]
        exact hfj
      simp only [List.map_cons, hnm]
      rw [show fz + 3 = (fz + 2) + 1 from rfl]
      rw [expandParts_step r (fz + 2) prev false oj.name (rest.map (nameOf r)) true []
        (prevFull ++ "." ++ oj.name) hltf
        (by simp only [Bool.not_false, Bool.and_true, beq_eq_false_iff_ne]
            exact strMid_ne_right prevFull oj.name)]
      cases rest with
      | nil =>
        rw [List.map_nil]
        rw [show fz + 2 = (fz + 1) + 1 from rfl]
        rw [proceedPart_last r (fz + 1) (prevFull ++ "." ++ oj.name) true []]
        rfl
      | cons j2 rest2 =>
        rw [List.map_cons]
        rw [show fz + 2 = (fz + 1) + 1 from rfl]
        rw [proceedPart_go r (fz + 1) (prevFull ++ "." ++ oj.name) (nameOf r j2)
          (rest2.map (nameOf r)) true [] j hdg']
        rw [List.getLast?_cons_cons] at hl
        have hfj2 : fullNameF r (gp + 1) j = Except.ok (prevFull ++ "." ++ oj.name) := by
          simp only [fullNameF, hgj, hpar']
          rw [hfull]
        have hrec := ih j (prevFull ++ "." ++ oj.name) (gp + 1) (fz + 1) hrest hfj2 hl
          (by simp only [List.length_cons] at hle ⊢; omega)
        simp only [List.map_cons] at hrec
        exact hrec

/-- C7 counterexample: the entity `m.i` is an `Indirection` registered under
its full name `m.i`, yet `resolve_name` from the root with `"m.i"` returns
the object `m.x` (index 2), not the indirection itself (index 1). -/
theorem c7_counterexample :
    fullNameF indirectionTree 4 1 = Except.ok "m.i" ∧
    dsdGet indirectionTree.allObjects "m.i" = some 1 ∧
    resolveNameF indirectionTree 32 0 "m.i" true = Except.ok (some 2) ∧
    (some 2 : Option Nat) ≠ some 1 :=
  ⟨by decide, by decide, by decide, by decide⟩

/-- C7 (amended): for an entity `E` that is neither an alias `Data` nor an
`Indirection` and is canonically indexed (each ancestor is the first member
with its name in its parent, the registry's first binding for every prefix
full name is the corresponding ancestor, and the root module has no member
named after itself), `resolve_name` from the root module with `E`'s full name
returns `E` itself. -/
theorem c7_roundtrip (r : Root) (hwf : wfRoot r = true) (root E fuel : Nat)
    (rest : List Nat) (oe : Obj) (s : String)
    (hchain : canonChain r (root :: rest) = true)
    (hlastE : (root :: rest).getLast? = some E)
    (hgE : getObj r E = some oe)
    (hni : oe.kind ≠ Kind.indirection) (hna : ¬(oe.kind = Kind.data ∧ isAlias oe = true))
    (hs : s = chainFull (nameOf r root) (rest.map (nameOf r)))
    (hsplit : splitDots s = (root :: rest).map (nameOf r))
    (hfuel : 3 * rest.length + 6 ≤ fuel) :
    resolveNameF r fuel root s true = Except.ok (some E) := by
  cases hgroot : getObj r root with
  | none => simp [canonChain, hgroot] at hchain
  | some o =>
    simp only [canonChain, hgroot, Bool.and_eq_true] at hchain
    obtain ⟨⟨⟨hparR, hregR⟩, hmemR⟩, hauxR⟩ := hchain
    have hparR' := of_decide_eq_true hparR
    have hregR' := of_decide_eq_true hregR
    have hmemR' := of_decide_eq_true hmemR
    have hnmroot : nameOf r root = o.name := by rw [nameOf, hgroot]
    have hkmod : o.kind = Kind.module :=
      wfObj_root_module r o (wf_getObj r hwf root o hgroot) hparR'
    obtain ⟨fz, rfl⟩ : ∃ fz, fuel = fz + 3 := ⟨fuel - 3, by omega⟩
    have hltfR : localToFullName r (fz + 1) root o.name true [] = Except.ok o.name := by
      simp only [localToFullName, hgroot]
      rw [if_pos (by rw [isContainer, hkmod]; rfl), hmemR']
      rw [if_neg (by rw [hkmod]; decide)]
    have hfull1 : fullNameF r 1 root = Except.ok o.name := by
      simp only [fullNameF, hgroot, hparR']
    have hmain : expandParts r (fz + 2) root true ((root :: rest).map (nameOf r)) true [] =
        Except.ok s := by
      simp only [List.map_cons, hnmroot]
      rw [show fz + 2 = (fz + 1) + 1 from rfl]
      rw [expandParts_step r (fz + 1) root true o.name (rest.map (nameOf r)) true []
        o.name hltfR (by simp)]
      cases rest with
      | nil =>
        rw [List.map_nil]
        rw [proceedPart_last r fz o.name true []]
        rw [hs, hnmroot]
        rfl
      | cons j rest2 =>
        rw [List.map_cons]
        rw [proceedPart_go r fz o.name (nameOf r j) (rest2.map (nameOf r)) true [] root hregR']
        rw [List.getLast?_cons_cons] at hlastE
        have hrec := canonWalk r E oe hgE hni hna (j :: rest2) root o.name 1 fz hauxR
          hfull1 hlastE (by simp only [List.length_cons] at hfuel ⊢; omega)
        simp only [List.map_cons] at hrec
        rw [hrec, hs, hnmroot]
        simp only [List.map_cons]
    have hres := resolveNameF_of_expand r (fz + 2) root s s true (by rw [hsplit]; exact hmain)
    rw [show fz + 3 = (fz + 2) + 1 from rfl, hres]
    cases rest with
    | nil =>
      simp only [List.getLast?_singleton] at hlastE
      injection hlastE with hlastE
      rw [hs, hnmroot]
      subst hlastE
      simp only [List.map_nil, chainFull]
      rw [hregR']
    | cons j rest2 =>
      rw [List.getLast?_cons_cons] at hlastE
      rw [hs, hnmroot]
      rw [canonLast r E (j :: rest2) root o.name hauxR hlastE]

theorem c7_roundtrip_witness :
    resolveNameF aliasPairTree 9 0 "m.b" true = Except.ok (some 2) :=
  c7_roundtrip aliasPairTree (by decide) 0 2 9 [2] (mkData "b" (some 0) none) "m.b"
    (by decide) (by decide) (by decide) (by decide) (by decide)
    (by decide) (by decide) (by decide)

/-! ## Divergence of the inheritance scan on cyclic resolved bases (for C1)

On `cyclicBaseTree` (`class A(B)` / `class B(A)`), looking up a name that
neither class defines makes `Class.find` recurse forever: at every fuel the
embedding runs out of fuel, matching the unbounded generator recursion
(`RecursionError`) of the source. -/

theorem cycRB1 : ∀ f, resolvedBases cyclicBaseTree f 1 = Except.error Err.fuelOut ∨
    resolvedBases cyclicBaseTree f 1 = Except.ok [RBase.obj 2]
  | 0 => Or.inl rfl
  | 1 => Or.inl (by decide)
  | 2 => Or.inl (by decide)
  | 3 => Or.inl (by decide)
  | 4 => Or.inl (by decide)
  | 5 => Or.inl (by decide)
  | 6 => Or.inl (by decide)
  | q + 7 => Or.inr rfl

theorem cycRB2 : ∀ f, resolvedBases cyclicBaseTree f 2 = Except.error Err.fuelOut ∨
    resolvedBases cyclicBaseTree f 2 = Except.ok [RBase.obj 1]
  | 0 => Or.inl rfl
  | 1 => Or.inl (by decide)
  | 2 => Or.inl (by decide)
  | 3 => Or.inl (by decide)
  | 4 => Or.inl (by decide)
  | 5 => Or.inl (by decide)
  | 6 => Or.inl (by decide)
  | q + 7 => Or.inr rfl

theorem scanBases_single_cls (r : Root) (h2 oid : Nat) (o : Obj) (nm : String)
    (hg : getObj r oid = some o) (hk : o.kind = Kind.cls)
    (hf : findMember r h2 oid nm = Except.error Err.fuelOut) :
    scanBases r (h2 + 1) [RBase.obj oid] nm = Except.error Err.fuelOut := by
  simp only [scanBases, hg]
  rw [if_pos hk, hf]

theorem cycFind : ∀ f, findMember cyclicBaseTree f 1 "nope" = Except.error Err.fuelOut ∧
    findMember cyclicBaseTree f 2 "nope" = Except.error Err.fuelOut := by
  intro f
  induction f using Nat.strong_induction_on with
  | _ f IH =>
    match f with
    | 0 => exact ⟨rfl, rfl⟩
    | g + 1 =>
      constructor
      · have hgm : getMember cyclicBaseTree 1 "nope" = none := by decide
        simp only [findMember, hgm]
        rcases cycRB1 g with h | h
        · rw [h]
        · rw [h]
          cases g with
          | zero => rfl
          | succ h2 =>
            exact scanBases_single_cls cyclicBaseTree h2 2
              ⟨"B", Kind.cls, some 0, [], ["A"], none, ""⟩ "nope" (by decide) (by decide)
              (IH h2 (by omega)).2
      · have hgm : getMember cyclicBaseTree 2 "nope" = none := by decide
        simp only [findMember, hgm]
        rcases cycRB2 g with h | h
        · rw [h]
        · rw [h]
          cases g with
          | zero => rfl
          | succ h2 =>
            exact scanBases_single_cls cyclicBaseTree h2 1
              ⟨"A", Kind.cls, some 0, [], ["B"], none, ""⟩ "nope" (by decide) (by decide)
              (IH h2 (by omega)).1

/-- The failing branch of `expand_name`: the part is unresolved, the context
is a class, and its inheritance scan runs forever. -/
theorem expandParts_find_diverges (r : Root) (fuel ctx : Nat) (part : String)
    (rest : List String) (follow : Bool) (chain : List Ind) (o : Obj)
    (hl : localToFullName r fuel ctx part follow chain = Except.ok part)
    (hg : getObj r ctx = some o) (hk : o.kind = Kind.cls)
    (hf : findMember r fuel ctx part = Except.error Err.fuelOut) :
    expandParts r (fuel + 1) ctx false (part :: rest) follow chain =
      Except.error Err.fuelOut := by
  simp only [expandParts, hl, hg]
  rw [if_pos (by simp), if_pos hk, hf]

theorem cycExpandInner :
    ∀ f, expandParts cyclicBaseTree f 1 false ["nope"] true [] = Except.error Err.fuelOut
  | 0 => rfl
  | 1 => by decide
  | 2 => by decide
  | g + 3 => by
    exact expandParts_find_diverges cyclicBaseTree (g + 2) 1 "nope" [] true []
      ⟨"A", Kind.cls, some 0, [], ["B"], none, ""⟩ rfl (by decide) (by decide)
      (cycFind (g + 2)).1

theorem cycExpandTop :
    ∀ f, expandParts cyclicBaseTree f 0 true ["A", "nope"] true [] = Except.error Err.fuelOut
  | 0 => rfl
  | 1 => by decide
  | 2 => by decide
  | 3 => by decide
  | g + 4 => by
    have hltf : localToFullName cyclicBaseTree (g + 3) 0 "A" true [] = Except.ok "m.A" := rfl
    rw [show g + 4 = (g + 3) + 1 from rfl]
    rw [expandParts_step cyclicBaseTree (g + 3) 0 true "A" ["nope"] true [] "m.A" hltf
      (by decide)]
    rw [show g + 3 = (g + 2) + 1 from rfl]
    rw [proceedPart_go cyclicBaseTree (g + 2) "m.A" "nope" [] true [] 1 (by decide)]
    exact cycExpandInner (g + 2)

/-- C1 counterexample: the claim "for every entity with a well-formed parent
chain and every non-empty dotted name, `expand_name` terminates with a
non-empty string and never fails" is false — on `cyclicBaseTree` (well-formed
parents, cyclic base-class references) `expand_name(m, "A.nope")` exhausts
every fuel: the inheritance scan recurses unboundedly. -/
theorem c1_counterexample :
    ¬ (∀ (r : Root) (i : Nat) (name : String), wfRoot r = true → i < r.objs.length →
      name ≠ "" → ∃ fuel s, expandName r fuel i name true [] = Except.ok s ∧ s ≠ "") := by
  intro h
  obtain ⟨fuel, s, hok, _⟩ := h cyclicBaseTree 0 "A.nope" (by decide) (by decide) (by decide)
  rw [expandName, show splitDots "A.nope" = ["A", "nope"] from by decide] at hok
  rw [cycExpandTop fuel] at hok
  cases hok

/-! ## Safety of the auxiliary walks (for the amended C1) -/

theorem ne_pyRaise_of {α : Type} (x : Res α) (hx : x ≠ Except.error Err.pyRaise) (e : Err)
    (he : x = Except.error e) : e ≠ Err.pyRaise := by
  intro hc
  exact hx (by rw [he, hc])

theorem fullNameF_props (r : Root) (hwf : wfRoot r = true) :
    ∀ fuel i, i < r.objs.length →
      fullNameF r fuel i ≠ Except.error Err.pyRaise ∧
      ∀ s, fullNameF r fuel i = Except.ok s → s ≠ "" := by
  intro fuel
  induction fuel with
  | zero => intro i _; exact ⟨by simp [fullNameF], by simp [fullNameF]⟩
  | succ f ih =>
    intro i hi
    obtain ⟨o, hgo⟩ := getObj_of_lt r i hi
    have hw := wf_getObj r hwf i o hgo
    cases hp : o.parent with
    | none =>
      refine ⟨by simp [fullNameF, hgo, hp], ?_⟩
      intro s hs
      simp only [fullNameF, hgo, hp] at hs
      injection hs with hs
      exact hs ▸ wfObj_name r o hw
    | some p =>
      have hpv := (wfObj_parent r o hw p hp).1
      have ihp := ih p hpv
      cases hr : fullNameF r f p with
      | error e =>
        have he := ne_pyRaise_of _ ihp.1 e hr
        refine ⟨?_, ?_⟩
        · simp only [fullNameF, hgo, hp, hr]
          simp [he]
        · intro s hs
          simp only [fullNameF, hgo, hp, hr] at hs
          exact absurd hs (by simp)
      | ok t =>
        refine ⟨?_, ?_⟩
        · simp [fullNameF, hgo, hp, hr]
        · intro s hs
          simp only [fullNameF, hgo, hp, hr] at hs
          injection hs with hs
          exact hs ▸ strMid_ne t o.name

theorem moduleF_props (r : Root) (hwf : wfRoot r = true) :
    ∀ fuel i, i < r.objs.length → moduleF r fuel i ≠ Except.error Err.pyRaise := by
  intro fuel
  induction fuel with
  | zero => intro i _; simp [moduleF]
  | succ f ih =>
    intro i hi
    obtain ⟨o, hgo⟩ := getObj_of_lt r i hi
    have hw := wf_getObj r hwf i o hgo
    by_cases hk : o.kind = Kind.module
    · simp [moduleF, hgo, hk]
    · cases hp : o.parent with
      | none => exact absurd (wfObj_root_module r o hw hp) hk
      | some p =>
        have hpv := (wfObj_parent r o hw p hp).1
        simp only [moduleF, hgo, hp]
        rw [if_neg hk]
        exact ih p hpv

/-- Well-formedness of a chain `Indirection`: owned by a valid parent and
named. -/
def indOK (r : Root) (ind : Ind) : Prop :=
  (∃ p, ind.parent = some p ∧ p < r.objs.length) ∧ ind.name ≠ ""

def chainOK (r : Root) (chain : List Ind) : Prop :=
  ∀ ind ∈ chain, indOK r ind

theorem indFullName_props (r : Root) (hwf : wfRoot r = true) (fuel : Nat) (ind : Ind)
    (hok : indOK r ind) :
    indFullName r fuel ind ≠ Except.error Err.pyRaise ∧
    ∀ s, indFullName r fuel ind = Except.ok s → s ≠ "" := by
  obtain ⟨⟨p, hp, hpv⟩, hn⟩ := hok
  rw [indFullName, hp]
  cases hr : fullNameF r fuel p with
  | error e =>
    have he := ne_pyRaise_of _ (fullNameF_props r hwf fuel p hpv).1 e hr
    refine ⟨by simp [hr, he], ?_⟩
    intro s hs
    simp only [hr] at hs
    exact absurd hs (by simp)
  | ok t =>
    refine ⟨by simp [hr], ?_⟩
    intro s hs
    simp only [hr] at hs
    injection hs with hs
    exact hs ▸ strMid_ne t ind.name

theorem pyOr_props (r : Root) (hwf : wfRoot r = true) (fuel : Nat) (o : Option String)
    (mid : Nat) (hmv : mid < r.objs.length) :
    pyOr r fuel o mid ≠ Except.error Err.pyRaise ∧
    ∀ s, pyOr r fuel o mid = Except.ok s → s ≠ "" := by
  have hfp := fullNameF_props r hwf fuel mid hmv
  cases o with
  | none => exact ⟨hfp.1, hfp.2⟩
  | some t =>
    by_cases ht : t = ""
    · rw [pyOr, if_pos ht]
      exact ⟨hfp.1, hfp.2⟩
    · rw [pyOr, if_neg ht]
      exact ⟨by simp, fun s hs => by injection hs with hs; exact hs ▸ ht⟩

/-! ## The resolution invariant (amended C1): on a well-formed tree, the
resolution engine never raises — every outcome is a value or fuel exhaustion
— and every string `expand_name` produces is non-empty. -/

def PExpand (r : Root) (fuel : Nat) : Prop :=
  ∀ ctx first parts follow chain, ctx < r.objs.length → parts ≠ [] → chainOK r chain →
    expandParts r fuel ctx first parts follow chain ≠ Except.error Err.pyRaise ∧
    ∀ s, expandParts r fuel ctx first parts follow chain = Except.ok s →
      s ≠ "" ∨ (first = true ∧ parts = [""])

def PProceed (r : Root) (fuel : Nat) : Prop :=
  ∀ fn rest follow chain, chainOK r chain →
    proceedPart r fuel fn rest follow chain ≠ Except.error Err.pyRaise ∧
    ∀ s, proceedPart r fuel fn rest follow chain = Except.ok s →
      s ≠ "" ∨ (s = fn ∧ rest = [])

def PLocal (r : Root) (fuel : Nat) : Prop :=
  ∀ i nm follow chain, i < r.objs.length → chainOK r chain →
    localToFullName r fuel i nm follow chain ≠ Except.error Err.pyRaise ∧
    ∀ s, localToFullName r fuel i nm follow chain = Except.ok s → s ≠ "" ∨ s = nm

def PResInd (r : Root) (fuel : Nat) : Prop :=
  ∀ ind chain, indOK r ind → chainOK r chain →
    resolveIndirection r fuel ind chain ≠ Except.error Err.pyRaise

def PFind (r : Root) (fuel : Nat) : Prop :=
  ∀ c nm (o : Obj), getObj r c = some o → o.kind = Kind.cls →
    findMember r fuel c nm ≠ Except.error Err.pyRaise ∧
    ∀ x, findMember r fuel c nm = Except.ok (some x) → x < r.objs.length

def PScan (r : Root) (fuel : Nat) : Prop :=
  ∀ bs nm, (∀ oid, RBase.obj oid ∈ bs → oid < r.objs.length) →
    scanBases r fuel bs nm ≠ Except.error Err.pyRaise ∧
    ∀ x, scanBases r fuel bs nm = Except.ok (some x) → x < r.objs.length

def PResBases (r : Root) (fuel : Nat) : Prop :=
  ∀ c (o : Obj), getObj r c = some o → o.kind = Kind.cls →
    resolvedBases r fuel c ≠ Except.error Err.pyRaise ∧
    ∀ bs, resolvedBases r fuel c = Except.ok bs →
      ∀ oid, RBase.obj oid ∈ bs → oid < r.objs.length

def PResBaseList (r : Root) (fuel : Nat) : Prop :=
  ∀ p bs, p < r.objs.length →
    resolveBaseList r fuel p bs ≠ Except.error Err.pyRaise ∧
    ∀ l, resolveBaseList r fuel p bs = Except.ok l →
      ∀ oid, RBase.obj oid ∈ l → oid < r.objs.length

def PResName (r : Root) (fuel : Nat) : Prop :=
  ∀ ctx nm follow, ctx < r.objs.length →
    resolveNameF r fuel ctx nm follow ≠ Except.error Err.pyRaise ∧
    ∀ v, resolveNameF r fuel ctx nm follow = Except.ok (some v) → v < r.objs.length

def PAll (r : Root) (fuel : Nat) : Prop :=
  PExpand r fuel ∧ PProceed r fuel ∧ PLocal r fuel ∧ PResInd r fuel ∧ PFind r fuel ∧
  PScan r fuel ∧ PResBases r fuel ∧ PResBaseList r fuel ∧ PResName r fuel

theorem pAllZero (r : Root) : PAll r 0 := by
  refine ⟨?_, ?_, ?_, ?_, ?_, ?_, ?_, ?_, ?_⟩
  · intro ctx first parts follow chain _ _ _
    exact ⟨by simp [expandParts], by simp [expandParts]⟩
  · intro fn rest follow chain _
    exact ⟨by simp [proceedPart], by simp [proceedPart]⟩
  · intro i nm follow chain _ _
    exact ⟨by simp [localToFullName], by simp [localToFullName]⟩
  · intro ind chain _ _
    simp [resolveIndirection]
  · intro c nm o _ _
    exact ⟨by simp [findMember], by simp [findMember]⟩
  · intro bs nm _
    exact ⟨by simp [scanBases], by simp [scanBases]⟩
  · intro c o _ _
    exact ⟨by simp [resolvedBases], by simp [resolvedBases]⟩
  · intro p bs _
    exact ⟨by simp [resolveBaseList], by simp [resolveBaseList]⟩
  · intro ctx nm follow _
    exact ⟨by simp [resolveNameF], by simp [resolveNameF]⟩

theorem stepProceed (r : Root) (hwf : wfRoot r = true) (f : Nat) (ihE : PExpand r f) :
    PProceed r (f + 1) := by
  intro fn rest follow chain hch
  cases hd : dsdGet r.allObjects fn with
  | none =>
    rw [proceedPart_break r f fn rest follow chain hd]
    refine ⟨by simp, ?_⟩
    intro s hs
    injection hs with hs
    cases rest with
    | nil => exact Or.inr ⟨hs.symm, rfl⟩
    | cons a l => exact Or.inl (hs ▸ joinDots_cons_cons fn a l)
  | some nxt =>
    have hnv : nxt < r.objs.length := wf_reg r hwf fn nxt hd
    cases rest with
    | nil =>
      rw [proceedPart_last r f fn follow chain]
      exact ⟨by simp, fun s hs => by injection hs with hs; exact Or.inr ⟨hs.symm, rfl⟩⟩
    | cons a l =>
      rw [proceedPart_go r f fn a l follow chain nxt hd]
      have he := ihE nxt false (a :: l) follow chain hnv (by simp) hch
      refine ⟨he.1, ?_⟩
      intro s hs
      rcases he.2 s hs with h | ⟨hfalse, _⟩
      · exact Or.inl h
      · cases hfalse

theorem stepResName (r : Root) (hwf : wfRoot r = true) (f : Nat) (ihE : PExpand r f) :
    PResName r (f + 1) := by
  intro ctx nm follow hctx
  have he := ihE ctx true (splitDots nm) follow [] hctx (splitDots_ne_nil nm)
    (by intro i hi; cases hi)
  cases hx : expandParts r f ctx true (splitDots nm) follow [] with
  | error e =>
    have hne := ne_pyRaise_of _ he.1 e hx
    constructor
    · simp only [resolveNameF, hx]
      simp [hne]
    · intro v hv
      simp only [resolveNameF, hx] at hv
      exact absurd hv (by simp)
  | ok s =>
    constructor
    · simp [resolveNameF, hx]
    · intro v hv
      simp only [resolveNameF, hx] at hv
      injection hv with hv
      exact wf_reg r hwf s v hv

theorem stepScan (r : Root) ( _hwf : wfRoot r = true) (f : Nat) (ihF : PFind r f)
    (ihS : PScan r f) : PScan r (f + 1) := by
  intro bs nm hv
  cases bs with
  | nil =>
    exact ⟨by simp [scanBases], by intro x hx; simp [scanBases] at hx⟩
  | cons b rest =>
    have hrest := ihS rest nm (fun oid2 hm => hv oid2 (List.mem_cons_of_mem _ hm))
    cases b with
    | txt s =>
      exact ⟨by simp only [scanBases]; exact hrest.1,
             by intro x hx; simp only [scanBases] at hx; exact hrest.2 x hx⟩
    | obj oid =>
      have hov : oid < r.objs.length := hv oid (List.mem_cons_self _ _)
      obtain ⟨o, hgo⟩ := getObj_of_lt r oid hov
      by_cases hk : o.kind = Kind.cls
      · have hf := ihF oid nm o hgo hk
        cases hr : findMember r f oid nm with
        | error e =>
          have hne := ne_pyRaise_of _ hf.1 e hr
          refine ⟨?_, ?_⟩
          · simp only [scanBases, hgo]
            rw [if_pos hk, hr]
            simp [hne]
          · intro x hx
            simp only [scanBases, hgo] at hx
            rw [if_pos hk, hr] at hx
            exact absurd hx (by simp)
        | ok v =>
          cases v with
          | some x0 =>
            refine ⟨?_, ?_⟩
            · simp only [scanBases, hgo]
              rw [if_pos hk, hr]
              simp
            · intro x hx
              simp only [scanBases, hgo] at hx
              rw [if_pos hk, hr] at hx
              injection hx with hx
              injection hx with hx
              exact hx ▸ hf.2 x0 hr
          | none =>
            refine ⟨?_, ?_⟩
            · simp only [scanBases, hgo]
              rw [if_pos hk, hr]
              exact hrest.1
            · intro x hx
              simp only [scanBases, hgo] at hx
              rw [if_pos hk, hr] at hx
              exact hrest.2 x hx
      · refine ⟨?_, ?_⟩
        · simp only [scanBases, hgo]
          rw [if_neg hk]
          exact hrest.1
        · intro x hx
          simp only [scanBases, hgo] at hx
          rw [if_neg hk] at hx
          exact hrest.2 x hx

theorem stepResBases (r : Root) (hwf : wfRoot r = true) (f : Nat)
    (ihBL : PResBaseList r f) : PResBases r (f + 1) := by
  intro c o hgo hk
  cases hp : o.parent with
  | none =>
    have hmod := wfObj_root_module r o (wf_getObj r hwf c o hgo) hp
    rw [hmod] at hk
    cases hk
  | some p =>
    have hpv := (wfObj_parent r o (wf_getObj r hwf c o hgo) p hp).1
    have hbl := ihBL p o.bases hpv
    exact ⟨by simp only [resolvedBases, hgo, hp]; exact hbl.1,
           by intro bs hbs; simp only [resolvedBases, hgo, hp] at hbs; exact hbl.2 bs hbs⟩

theorem stepResBaseList (r : Root) ( _hwf : wfRoot r = true) (f : Nat)
    (ihRN : PResName r f) (ihE : PExpand r f) (ihBL : PResBaseList r f) :
    PResBaseList r (f + 1) := by
  intro p bs hpv
  cases bs with
  | nil =>
    refine ⟨by simp [resolveBaseList], ?_⟩
    intro l hl oid hm
    simp only [resolveBaseList] at hl
    injection hl with hl
    rw [← hl] at hm
    cases hm
  | cons b rest =>
    have hrn := ihRN p b true hpv
    have hrec := ihBL p rest hpv
    cases hr : resolveNameF r f p b true with
    | error e =>
      have hne := ne_pyRaise_of _ hrn.1 e hr
      refine ⟨?_, ?_⟩
      · simp only [resolveBaseList, hr]
        simp [hne]
      · intro l hl
        simp only [resolveBaseList, hr] at hl
        exact absurd hl (by simp)
    | ok v =>
      cases v with
      | some oid =>
        have hoid := hrn.2 oid hr
        cases hr2 : resolveBaseList r f p rest with
        | error e =>
          have hne := ne_pyRaise_of _ hrec.1 e hr2
          refine ⟨?_, ?_⟩
          · simp only [resolveBaseList, hr, hr2]
            simp [hne]
          · intro l hl
            simp only [resolveBaseList, hr, hr2] at hl
            exact absurd hl (by simp)
        | ok tl =>
          refine ⟨by simp [resolveBaseList, hr, hr2], ?_⟩
          intro l hl oid2 hm
          simp only [resolveBaseList, hr, hr2] at hl
          injection hl with hl
          rw [← hl] at hm
          rcases List.mem_cons.mp hm with hm | hm
          · injection hm with hm
            exact hm ▸ hoid
          · exact hrec.2 tl hr2 oid2 hm
      | none =>
        have hex := ihE p true (splitDots b) true [] hpv (splitDots_ne_nil b)
          (by intro i hi; cases hi)
        cases hr2 : expandParts r f p true (splitDots b) true [] with
        | error e =>
          have hne := ne_pyRaise_of _ hex.1 e hr2
          refine ⟨?_, ?_⟩
          · simp only [resolveBaseList, hr, hr2]
            simp [hne]
          · intro l hl
            simp only [resolveBaseList, hr, hr2] at hl
            exact absurd hl (by simp)
        | ok s =>
          cases hr3 : resolveBaseList r f p rest with
          | error e =>
            have hne := ne_pyRaise_of _ hrec.1 e hr3
            refine ⟨?_, ?_⟩
            · simp only [resolveBaseList, hr, hr2, hr3]
              simp [hne]
            · intro l hl
              simp only [resolveBaseList, hr, hr2, hr3] at hl
              exact absurd hl (by simp)
          | ok tl =>
            refine ⟨by simp [resolveBaseList, hr, hr2, hr3], ?_⟩
            intro l hl oid2 hm
            simp only [resolveBaseList, hr, hr2, hr3] at hl
            injection hl with hl
            rw [← hl] at hm
            rcases List.mem_cons.mp hm with hm | hm
            · cases hm
            · exact hrec.2 tl hr3 oid2 hm

theorem stepFind (r : Root) (hwf : wfRoot r = true) (f : Nat) (ihB : PResBases r f)
    (ihS : PScan r f) : PFind r (f + 1) := by
  intro c nm o hgo hk
  cases hm : getMember r c nm with
  | some m =>
    refine ⟨by simp [findMember, hm], ?_⟩
    intro x hx
    simp only [findMember, hm] at hx
    injection hx with hx
    injection hx with hx
    exact hx ▸ getMember_valid r hwf c nm m hm
  | none =>
    have hb := ihB c o hgo hk
    cases hr : resolvedBases r f c with
    | error e =>
      have hne := ne_pyRaise_of _ hb.1 e hr
      refine ⟨?_, ?_⟩
      · simp only [findMember, hm, hr]
        simp [hne]
      · intro x hx
        simp only [findMember, hm, hr] at hx
        exact absurd hx (by simp)
    | ok bs =>
      have hs := ihS bs nm (hb.2 bs hr)
      refine ⟨?_, ?_⟩
      · simp only [findMember, hm, hr]
        exact hs.1
      · intro x hx
        simp only [findMember, hm, hr] at hx
        exact hs.2 x hx

theorem stepResInd (r : Root) (hwf : wfRoot r = true) (f : Nat) (ihE : PExpand r f) :
    PResInd r (f + 1) := by
  intro ind chain hind hch
  obtain ⟨⟨ctx, hpc, hctxv⟩, hnm⟩ := hind
  by_cases hlen : chain.length > RESOLVE_ALIAS_MAX_RECURSE
  · cases chain with
    | nil => simp [RESOLVE_ALIAS_MAX_RECURSE] at hlen
    | cons i0 rest =>
      have hi0 : indOK r i0 := hch i0 (List.mem_cons_self _ _)
      have hip := indFullName_props r hwf f i0 hi0
      simp only [resolveIndirection]
      rw [if_pos hlen]
      show (match indFullName r f i0 with
        | Except.error e => Except.error e
        | Except.ok s => Except.ok (some s)) ≠ _
      cases hr : indFullName r f i0 with
      | error e =>
        have hne := ne_pyRaise_of _ hip.1 e hr
        simp [hr, hne]
      | ok s => simp [hr]
  · obtain ⟨co, hgc⟩ := getObj_of_lt r ctx hctxv
    have hchApp : chainOK r (chain ++ [ind]) := by
      intro j hj
      rcases List.mem_append.mp hj with hj | hj
      · exact hch j hj
      · rcases List.mem_singleton.mp hj with rfl
        exact ⟨⟨ctx, hpc, hctxv⟩, hnm⟩
    simp only [resolveIndirection, hpc]
    rw [if_neg hlen]
    by_cases hlast : chain.getLast? = some ind
    · rw [if_pos hlast]
      cases hcp : co.parent with
      | none => simp [hgc, hcp]
      | some cp =>
        have hm1p := moduleF_props r hwf f ctx hctxv
        cases hm1 : moduleF r f ctx with
        | error e =>
          have hne := ne_pyRaise_of _ hm1p e hm1
          simp [hgc, hcp, hm1, hne]
        | ok m1 =>
          have hcpv := (wfObj_parent r co (wf_getObj r hwf ctx co hgc) cp hcp).1
          have hm2p := moduleF_props r hwf f cp hcpv
          cases hm2 : moduleF r f cp with
          | error e =>
            have hne := ne_pyRaise_of _ hm2p e hm2
            simp [hgc, hcp, hm1, hm2, hne]
          | ok m2 =>
            by_cases heq : m1 = m2
            · have hexp := ihE cp true (splitDots ind.target) true (chain ++ [ind]) hcpv
                (splitDots_ne_nil _) hchApp
              cases hex : expandParts r f cp true (splitDots ind.target) true
                  (chain ++ [ind]) with
              | error e =>
                have hne := ne_pyRaise_of _ hexp.1 e hex
                simp [hgc, hcp, hm1, hm2, heq, hex, hne]
              | ok s => simp [hgc, hcp, hm1, hm2, heq, hex]
            · simp [hgc, hcp, hm1, hm2, heq]
    · rw [if_neg hlast]
      have hexp := ihE ctx true (splitDots ind.target) true (chain ++ [ind]) hctxv
        (splitDots_ne_nil _) hchApp
      cases hex : expandParts r f ctx true (splitDots ind.target) true (chain ++ [ind]) with
      | error e =>
        have hne := ne_pyRaise_of _ hexp.1 e hex
        simp [hex, hne]
      | ok s => simp [hex]

theorem stepLocal (r : Root) (hwf : wfRoot r = true) (f : Nat) (ihL : PLocal r f)
    (ihR : PResInd r f) : PLocal r (f + 1) := by
  intro i nm follow chain hiv hch
  obtain ⟨o, hgo⟩ := getObj_of_lt r i hiv
  have hw := wf_getObj r hwf i o hgo
  by_cases hc : isContainer o.kind = true
  · cases hm : getMember r i nm with
    | some mid =>
      have hmv := getMember_valid r hwf i nm mid hm
      obtain ⟨mo, hgm⟩ := getObj_of_lt r mid hmv
      have hwm := wf_getObj r hwf mid mo hgm
      have hmop : mo.kind ≠ Kind.module → ∃ p, mo.parent = some p ∧ p < r.objs.length := by
        intro hk
        cases hp : mo.parent with
        | none => exact absurd (wfObj_root_module r mo hwm hp) hk
        | some p => exact ⟨p, rfl, (wfObj_parent r mo hwm p hp).1⟩
      cases hal : (follow && (decide (mo.kind = Kind.data) && isAlias mo)) with
      | true =>
        have hdk : mo.kind = Kind.data := by
          have hal2 := hal
          simp only [Bool.and_eq_true] at hal2
          exact of_decide_eq_true hal2.2.1
        have hok : indOK r ⟨mo.parent, mo.name, aliasTarget mo⟩ :=
          ⟨hmop (by rw [hdk]; decide), wfObj_name r mo hwm⟩
        have hri := ihR ⟨mo.parent, mo.name, aliasTarget mo⟩ chain hok hch
        cases hri2 : resolveIndirection r f ⟨mo.parent, mo.name, aliasTarget mo⟩ chain with
        | error e =>
          have hne := ne_pyRaise_of _ hri e hri2
          have heq : localToFullName r (f + 1) i nm follow chain = Except.error e := by
            simp [localToFullName, hgo, hc, hm, hgm, hal, hri2]
          exact ⟨by rw [heq]; simp [hne], by rw [heq]; intro s hs; exact absurd hs (by simp)⟩
        | ok res =>
          have hp2 := pyOr_props r hwf f res mid hmv
          have heq : localToFullName r (f + 1) i nm follow chain = pyOr r f res mid := by
            simp [localToFullName, hgo, hc, hm, hgm, hal, hri2]
          exact ⟨by rw [heq]; exact hp2.1,
                 fun s hs => Or.inl (hp2.2 s (by rw [← heq]; exact hs))⟩
      | false =>
        by_cases hik : mo.kind = Kind.indirection
        · have hok : indOK r ⟨mo.parent, mo.name, mo.target⟩ :=
            ⟨hmop (by rw [hik]; decide), wfObj_name r mo hwm⟩
          have hri := ihR ⟨mo.parent, mo.name, mo.target⟩ chain hok hch
          cases hri2 : resolveIndirection r f ⟨mo.parent, mo.name, mo.target⟩ chain with
          | error e =>
            have hne := ne_pyRaise_of _ hri e hri2
            have heq : localToFullName r (f + 1) i nm follow chain = Except.error e := by
              simp [localToFullName, hgo, hc, hm, hgm, hal, hik, hri2]
            exact ⟨by rw [heq]; simp [hne], by rw [heq]; intro s hs; exact absurd hs (by simp)⟩
          | ok res =>
            have hp2 := pyOr_props r hwf f res mid hmv
            have heq : localToFullName r (f + 1) i nm follow chain = pyOr r f res mid := by
              simp [localToFullName, hgo, hc, hm, hgm, hal, hik, hri2]
            exact ⟨by rw [heq]; exact hp2.1,
                   fun s hs => Or.inl (hp2.2 s (by rw [← heq]; exact hs))⟩
        · have hfp := fullNameF_props r hwf f mid hmv
          have heq : localToFullName r (f + 1) i nm follow chain = fullNameF r f mid := by
            simp [localToFullName, hgo, hc, hm, hgm, hal, hik]
          exact ⟨by rw [heq]; exact hfp.1,
                 fun s hs => Or.inl (hfp.2 s (by rw [← heq]; exact hs))⟩
    | none =>
      by_cases hcls : o.kind = Kind.cls
      · have hp : ∃ p, o.parent = some p ∧ p < r.objs.length := by
          cases hp : o.parent with
          | none =>
            have := wfObj_root_module r o hw hp
            rw [this] at hcls
            cases hcls
          | some p => exact ⟨p, rfl, (wfObj_parent r o hw p hp).1⟩
        obtain ⟨p, hpp, hpv⟩ := hp
        have hrec := ihL p nm follow chain hpv hch
        have heq : localToFullName r (f + 1) i nm follow chain =
            localToFullName r f p nm follow chain := by
          simp [localToFullName, hgo, hc, hm, hcls, hpp]
        exact ⟨by rw [heq]; exact hrec.1,
               fun s hs => hrec.2 s (by rw [← heq]; exact hs)⟩
      · have heq : localToFullName r (f + 1) i nm follow chain = Except.ok nm := by
          simp [localToFullName, hgo, hc, hm, hcls]
        exact ⟨by rw [heq]; simp, fun s hs => by
          rw [heq] at hs
          injection hs with hs
          exact Or.inr hs.symm⟩
  · have hp : ∃ p, o.parent = some p ∧ p < r.objs.length := by
      cases hp : o.parent with
      | none =>
        have := wfObj_root_module r o hw hp
        rw [this] at hc
        simp [isContainer] at hc
      | some p => exact ⟨p, rfl, (wfObj_parent r o hw p hp).1⟩
    obtain ⟨p, hpp, hpv⟩ := hp
    have hrec := ihL p nm follow chain hpv hch
    have heq : localToFullName r (f + 1) i nm follow chain =
        localToFullName r f p nm follow chain := by
      simp [localToFullName, hgo, hc, hpp]
    exact ⟨by rw [heq]; exact hrec.1,
           fun s hs => hrec.2 s (by rw [← heq]; exact hs)⟩

theorem stepExpand (r : Root) (hwf : wfRoot r = true) (f : Nat) (ihL : PLocal r f)
    (ihF : PFind r f) (ihP : PProceed r f) : PExpand r (f + 1) := by
  intro ctx first parts follow chain hctx hpne hch
  cases parts with
  | nil => exact absurd rfl hpne
  | cons part rest =>
    have hl := ihL ctx part follow chain hctx hch
    cases hr : localToFullName r f ctx part follow chain with
    | error e =>
      have hne := ne_pyRaise_of _ hl.1 e hr
      have heq : expandParts r (f + 1) ctx first (part :: rest) follow chain =
          Except.error e := by
        simp [expandParts, hr]
      exact ⟨by rw [heq]; simp [hne], by rw [heq]; intro s hs; exact absurd hs (by simp)⟩
    | ok fn =>
      cases hcond : (fn == part && !first) with
      | false =>
        have hp := ihP fn rest follow chain hch
        have heq : expandParts r (f + 1) ctx first (part :: rest) follow chain =
            proceedPart r f fn rest follow chain := by
          simp [expandParts, hr, hcond]
        refine ⟨by rw [heq]; exact hp.1, ?_⟩
        intro s hs
        rw [heq] at hs
        rcases hp.2 s hs with h | ⟨hsfn, hrest⟩
        · exact Or.inl h
        · rcases hl.2 fn hr with h | hfnp
          · exact Or.inl (hsfn ▸ h)
          · rw [hfnp] at hcond
            simp at hcond
            by_cases hpe : part = ""
            · exact Or.inr ⟨hcond, by rw [hrest, hpe]⟩
            · exact Or.inl (by rw [hsfn, hfnp]; exact hpe)
      | true =>
        cases first with
        | true => simp at hcond
        | false =>
        have hfp2 : (fn == part) = true := by simpa using hcond
        obtain ⟨o, hgo⟩ := getObj_of_lt r ctx hctx
        have hcfp := fullNameF_props r hwf f ctx hctx
        by_cases hk : o.kind = Kind.cls
        · have hf := ihF ctx part o hgo hk
          cases hfr : findMember r f ctx part with
          | error e =>
            have hne := ne_pyRaise_of _ hf.1 e hfr
            have heq : expandParts r (f + 1) ctx false (part :: rest) follow chain =
                Except.error e := by
              simp [expandParts, hr, hfp2, hgo, hk, hfr]
            exact ⟨by rw [heq]; simp [hne], by rw [heq]; intro s hs; exact absurd hs (by simp)⟩
          | ok v =>
            cases v with
            | some fid =>
              have hfv := hf.2 fid hfr
              have hfp := fullNameF_props r hwf f fid hfv
              cases hfn : fullNameF r f fid with
              | error e =>
                have hne := ne_pyRaise_of _ hfp.1 e hfn
                have heq : expandParts r (f + 1) ctx false (part :: rest) follow chain =
                    Except.error e := by
                  simp [expandParts, hr, hfp2, hgo, hk, hfr, hfn]
                exact ⟨by rw [heq]; simp [hne],
                       by rw [heq]; intro s hs; exact absurd hs (by simp)⟩
              | ok fs =>
                have hfs : fs ≠ "" := hfp.2 fs hfn
                cases hfs2 : (fs == part) with
                | true =>
                  cases hcf : fullNameF r f ctx with
                  | error e =>
                    have hne := ne_pyRaise_of _ hcfp.1 e hcf
                    have heq : expandParts r (f + 1) ctx false (part :: rest) follow chain =
                        Except.error e := by
                      simp [expandParts, hr, hfp2, hgo, hk, hfr, hfn, hfs2, hcf]
                    exact ⟨by rw [heq]; simp [hne],
                           by rw [heq]; intro s hs; exact absurd hs (by simp)⟩
                  | ok cf =>
                    have heq : expandParts r (f + 1) ctx false (part :: rest) follow chain =
                        Except.ok (joinDots ((cf ++ "." ++ part) :: rest)) := by
                      simp [expandParts, hr, hfp2, hgo, hk, hfr, hfn, hfs2, hcf]
                    refine ⟨by rw [heq]; simp, ?_⟩
                    intro s hs
                    rw [heq] at hs
                    injection hs with hs
                    exact Or.inl (hs ▸ joinDots_ne_of_head _ rest (strMid_ne cf part))
                | false =>
                  have hp := ihP fs rest follow chain hch
                  have heq : expandParts r (f + 1) ctx false (part :: rest) follow chain =
                      proceedPart r f fs rest follow chain := by
                    simp [expandParts, hr, hfp2, hgo, hk, hfr, hfn, hfs2]
                  refine ⟨by rw [heq]; exact hp.1, ?_⟩
                  intro s hs
                  rw [heq] at hs
                  rcases hp.2 s hs with h | ⟨hsfn, _⟩
                  · exact Or.inl h
                  · exact Or.inl (hsfn ▸ hfs)
            | none =>
              cases hcf : fullNameF r f ctx with
              | error e =>
                have hne := ne_pyRaise_of _ hcfp.1 e hcf
                have heq : expandParts r (f + 1) ctx false (part :: rest) follow chain =
                    Except.error e := by
                  simp [expandParts, hr, hfp2, hgo, hk, hfr, hcf]
                exact ⟨by rw [heq]; simp [hne],
                       by rw [heq]; intro s hs; exact absurd hs (by simp)⟩
              | ok cf =>
                have heq : expandParts r (f + 1) ctx false (part :: rest) follow chain =
                    Except.ok (joinDots ((cf ++ "." ++ part) :: rest)) := by
                  simp [expandParts, hr, hfp2, hgo, hk, hfr, hcf]
                refine ⟨by rw [heq]; simp, ?_⟩
                intro s hs
                rw [heq] at hs
                injection hs with hs
                exact Or.inl (hs ▸ joinDots_ne_of_head _ rest (strMid_ne cf part))
        · cases hcf : fullNameF r f ctx with
          | error e =>
            have hne := ne_pyRaise_of _ hcfp.1 e hcf
            have heq : expandParts r (f + 1) ctx false (part :: rest) follow chain =
                Except.error e := by
              simp [expandParts, hr, hfp2, hgo, hk, hcf]
            exact ⟨by rw [heq]; simp [hne], by rw [heq]; intro s hs; exact absurd hs (by simp)⟩
          | ok cf =>
            have heq : expandParts r (f + 1) ctx false (part :: rest) follow chain =
                Except.ok (joinDots ((cf ++ "." ++ part) :: rest)) := by
              simp [expandParts, hr, hfp2, hgo, hk, hcf]
            refine ⟨by rw [heq]; simp, ?_⟩
            intro s hs
            rw [heq] at hs
            injection hs with hs
            exact Or.inl (hs ▸ joinDots_ne_of_head _ rest (strMid_ne cf part))

theorem pAllStep (r : Root) (hwf : wfRoot r = true) (f : Nat) (ih : PAll r f) :
    PAll r (f + 1) := by
  obtain ⟨ihE, ihP, ihL, ihR, ihF, ihS, ihB, ihBL, ihRN⟩ := ih
  exact ⟨stepExpand r hwf f ihL ihF ihP, stepProceed r hwf f ihE, stepLocal r hwf f ihL ihR,
         stepResInd r hwf f ihE, stepFind r hwf f ihB ihS, stepScan r hwf f ihF ihS,
         stepResBases r hwf f ihBL, stepResBaseList r hwf f ihRN ihE ihBL,
         stepResName r hwf f ihE⟩

theorem pAll (r : Root) (hwf : wfRoot r = true) : ∀ fuel, PAll r fuel := by
  intro fuel
  induction fuel with
  | zero => exact pAllZero r
  | succ f ih => exact pAllStep r hwf f ih

/-- C1 (amended): on a tree with well-formed parent chains, no branch of the
expansion loop, the local lookup or the indirection resolution raises —
every run of `expand_name` either returns a string or exhausts fuel
(termination is not guaranteed: the inheritance fallback can recurse
unboundedly on cyclic base-class references, cf. the counterexample) — and
every string returned for a non-empty input name is non-empty. -/
theorem c1_never_raises (r : Root) (hwf : wfRoot r = true) (i fuel : Nat) (name : String)
    (hi : i < r.objs.length) (hn : name ≠ "") :
    (∀ e, expandName r fuel i name true [] = Except.error e → e = Err.fuelOut) ∧
    (∀ s, expandName r fuel i name true [] = Except.ok s → s ≠ "") := by
  have hP := (pAll r hwf fuel).1 i true (splitDots name) true [] hi (splitDots_ne_nil name)
    (by intro j hj; cases hj)
  constructor
  · intro e he
    rw [expandName] at he
    cases e with
    | fuelOut => rfl
    | pyRaise => exact absurd he hP.1
  · intro s hs
    rw [expandName] at hs
    rcases hP.2 s hs with h | ⟨_, hparts⟩
    · exact h
    · exact absurd (splitDots_single name "" hparts).symm hn

theorem c1_never_raises_witness :
    (∀ e, expandName aliasPairTree 32 2 "a" true [] = Except.error e → e = Err.fuelOut) ∧
    (∀ s, expandName aliasPairTree 32 2 "a" true [] = Except.ok s → s ≠ "") :=
  c1_never_raises aliasPairTree (by decide) 2 32 "a" (by decide) (by decide)

end Pydocspec
